import Mathlib

/-! The scanner of `lexer.cpp`.

A shallow embedding of `Token` and `Lexer_a` from `src/lexer.cpp`.

* The input is a `const char*` into a block of memory.  The memory is a
  `List Char` (`buf`), a pointer into it is an offset (`Nat`), and the null
  pointer of a default-constructed `std::string_view` is `none`.
* Reading outside the memory is undefined behaviour in C++; here every
  operation that reads returns an `Option`, and `none` stands for such a read.
* `std::distance(begin, end)` is taken between two offsets of the same block
  with `begin ≤ end`; the difference of two such offsets is bounded by the size
  of the block, so it is the subtraction of natural numbers.
-/

namespace TinyCompiler

/-- The enumeration `Kind` (lexer.cpp, lines 4-31). -/
inductive Kind where
  | Number
  | Identifier
  | LeftParen
  | RightParen
  | LeftSquare
  | RightSquare
  | LeftCurly
  | RightCurly
  | LessThan
  | GreaterThan
  | Equal
  | Plus
  | Minus
  | Asterisk
  | Slash
  | Hash
  | Dot
  | Comma
  | Colon
  | Semicolon
  | SingleQuote
  | DoubleQuote
  | Comment
  | Pipe
  | End
  | Error
  deriving DecidableEq, Repr

/-- A `std::string_view`: a pointer (an offset into the memory, `none` for the
null pointer of the default view) and a length. -/
structure StringView where
  data : Option Nat
  size : Nat
  deriving DecidableEq, Repr

/-- The characters a view denotes in the memory `buf`. -/
def StringView.chars (buf : List Char) (sv : StringView) : List Char :=
  match sv.data with
  | none => []
  | some beg => (buf.drop beg).take sv.size

/-- The class `Token`: `m_kind` and `m_lexeme` (lexer.cpp, lines 53-54). -/
structure Token where
  m_kind : Kind
  m_lexeme : StringView
  deriving DecidableEq, Repr

/-- The constructor `Token(Kind kind)`: the lexeme is the default view. -/
def Token.ofKind (kind : Kind) : Token :=
  { m_kind := kind, m_lexeme := { data := none, size := 0 } }

/-- The constructor `Token(Kind kind, const char* beg, std::size_t len)`. -/
def Token.ofLen (kind : Kind) (beg len : Nat) : Token :=
  { m_kind := kind, m_lexeme := { data := some beg, size := len } }

/-- The constructor `Token(Kind kind, const char* begin, const char* end)`, whose
length is `std::distance(begin, end)`. -/
def Token.ofRange (kind : Kind) (begin_ end_ : Nat) : Token :=
  { m_kind := kind, m_lexeme := { data := some begin_, size := end_ - begin_ } }

/-- The accessor `Token::kind()`. -/
def Token.kind (t : Token) : Kind := t.m_kind

/-- The accessor `Token::lexeme()`. -/
def Token.lexeme (t : Token) : StringView := t.m_lexeme

/-- The member `Token::is(Kind kind)`. -/
def Token.is (t : Token) (kind : Kind) : Bool := t.m_kind == kind

/-- The two overloads of `Token::is_either`.  A call with exactly two kinds
selects the non-template overload (line 41); a call with more selects the
template (lines 43-46), whose body is `is(k1) || is_either(k1, kinds...)`: the
recursive call passes `k1` again and the pack, and `k2` is not passed on. -/
def Token.is_either (t : Token) (k1 k2 : Kind) : List Kind → Bool
  | [] => t.m_kind == k1 || t.m_kind == k2
  | k3 :: kinds => t.is k1 || Token.is_either t k1 k3 kinds

/-- Modelled from the spec: `std::isspace` of the C library, which is not part
of the repository, in the "C" locale the program runs in: space, form feed,
newline, carriage return, horizontal tab, vertical tab. -/
def std_isspace (c : Char) : Bool :=
  c == ' ' || c == '\x0c' || c == '\n' || c == '\r' || c == '\t' || c == '\x0b'

/-- Modelled from the spec: `std::isdigit` of the C library: `0` to `9`. -/
def std_isdigit (c : Char) : Bool :=
  '0'.toNat ≤ c.toNat && c.toNat ≤ '9'.toNat

/-- Modelled from the spec: `std::isalpha` of the C library in the "C" locale:
a letter `A`-`Z` or `a`-`z`. -/
def std_isalpha (c : Char) : Bool :=
  ('A'.toNat ≤ c.toNat && c.toNat ≤ 'Z'.toNat) ||
  ('a'.toNat ≤ c.toNat && c.toNat ≤ 'z'.toNat)

/-- Modelled from the spec: `std::isalnum` of the C library: a letter or a
decimal digit. -/
def std_isalnum (c : Char) : Bool :=
  std_isalpha c || std_isdigit c

/-- The function `is_space` (lexer.cpp, lines 74-76). -/
def is_space (c : Char) : Bool := std_isspace c

/-- The function `is_digit` (lexer.cpp, lines 78-80). -/
def is_digit (c : Char) : Bool := std_isdigit c

/-- The function `is_identifier_char` (lexer.cpp, lines 82-84). -/
def is_identifier_char (c : Char) : Bool := std_isalnum c || c == '_'

/-- The class `Lexer_a`: its only member is the cursor `m_begin`. -/
structure Lexer_a where
  m_begin : Nat
  deriving DecidableEq, Repr

/-- The member `peek()`: `*m_begin`. -/
def Lexer_a.peek (buf : List Char) (lx : Lexer_a) : Option Char :=
  buf[lx.m_begin]?

/-- The member `get()`: `*m_begin++`. -/
def Lexer_a.get (buf : List Char) (lx : Lexer_a) : Option (Char × Lexer_a) :=
  match buf[lx.m_begin]? with
  | none => none
  | some c => some (c, { m_begin := lx.m_begin + 1 })

/-- The loop `while (pred(peek())) { get(); }`.  The first argument is the memory
from the cursor on (`buf.drop lx.m_begin`): its head is what `peek()` reads, and
`get()` moves to its tail.  An empty remainder is a read outside the memory. -/
def Lexer_a.get_while (pred : Char → Bool) : List Char → Lexer_a → Option Lexer_a
  | [], _ => none
  | c :: mem, lx =>
    if pred c then Lexer_a.get_while pred mem { m_begin := lx.m_begin + 1 } else some lx

/-- The member `atom(Kind kind)`: `Token(kind, m_begin++, 1)`. -/
def Lexer_a.atom (lx : Lexer_a) (kind : Kind) : Token × Lexer_a :=
  (Token.ofLen kind lx.m_begin 1, { m_begin := lx.m_begin + 1 })

/-- The member `Identifier()` (lexer.cpp, lines 127-134). -/
def Lexer_a.Identifier (buf : List Char) (lx : Lexer_a) : Option (Token × Lexer_a) :=
  let begin_ := lx.m_begin
  match lx.get buf with
  | none => none
  | some (_, lx1) =>
    match Lexer_a.get_while is_identifier_char (buf.drop lx1.m_begin) lx1 with
    | none => none
    | some lx2 => some (Token.ofRange Kind.Identifier begin_ lx2.m_begin, lx2)

/-- The member `number()` (lexer.cpp, lines 136-143). -/
def Lexer_a.number (buf : List Char) (lx : Lexer_a) : Option (Token × Lexer_a) :=
  let begin_ := lx.m_begin
  match lx.get buf with
  | none => none
  | some (_, lx1) =>
    match Lexer_a.get_while is_digit (buf.drop lx1.m_begin) lx1 with
    | none => none
    | some lx2 => some (Token.ofRange Kind.Number begin_ lx2.m_begin, lx2)

/-- The `switch` of `next()` (lexer.cpp, lines 95-123) on the character `c` that
`peek()` returned, with the cursor at that character. -/
def Lexer_a.dispatch (buf : List Char) (lx : Lexer_a) (c : Char) : Option (Token × Lexer_a) :=
  if c = '\x00' then some (Token.ofKind Kind.End, lx)
  else if c = '(' then some (lx.atom Kind.LeftParen)
  else if c = ')' then some (lx.atom Kind.RightParen)
  else if c = '[' then some (lx.atom Kind.LeftSquare)
  else if c = ']' then some (lx.atom Kind.RightSquare)
  else if c = '\x7b' then some (lx.atom Kind.LeftCurly)
  else if c = '\x7d' then some (lx.atom Kind.RightCurly)
  else if c = '<' then some (lx.atom Kind.LessThan)
  else if c = '>' then some (lx.atom Kind.GreaterThan)
  else if c = '=' then some (lx.atom Kind.Equal)
  else if c = '+' then some (lx.atom Kind.Plus)
  else if c = '-' then some (lx.atom Kind.Minus)
  else if c = '*' then some (lx.atom Kind.Asterisk)
  else if c = '/' then some (lx.atom Kind.Slash)
  else if c = '#' then some (lx.atom Kind.Hash)
  else if c = '.' then some (lx.atom Kind.Dot)
  else if c = ',' then some (lx.atom Kind.Comma)
  else if c = ':' then some (lx.atom Kind.Colon)
  else if c = ';' then some (lx.atom Kind.Semicolon)
  else if c = '\x27' then some (lx.atom Kind.SingleQuote)
  else if c = '\x22' then some (lx.atom Kind.DoubleQuote)
  else if c = '|' then some (lx.atom Kind.Pipe)
  else if is_digit c then lx.number buf
  else if is_identifier_char c then lx.Identifier buf
  else some (Token.ofLen Kind.Error lx.m_begin 1, { m_begin := lx.m_begin + 1 })

/-- The member `next()` (lexer.cpp, lines 90-125). -/
def Lexer_a.next (buf : List Char) (lx : Lexer_a) : Option (Token × Lexer_a) :=
  match Lexer_a.get_while is_space (buf.drop lx.m_begin) lx with
  | none => none
  | some lx1 =>
    match lx1.peek buf with
    | none => none
    | some c => lx1.dispatch buf c

/-- The loop of `comment_or_slash()` (lexer.cpp, lines 151-155),
`while (peek() != 0) { if (get() == newline) return ...; }`, on the memory from
the cursor on.  The result is `(true, lx)` when a newline was consumed and the
function returns from inside the loop with the cursor `lx` one past it, and
`(false, lx)` when the loop ended with the cursor `lx` at a terminator. -/
def Lexer_a.comment_loop : List Char → Lexer_a → Option (Bool × Lexer_a)
  | [], _ => none
  | c :: mem, lx =>
    if c ≠ '\x00' then
      if c = '\n' then some (true, { m_begin := lx.m_begin + 1 })
      else Lexer_a.comment_loop mem { m_begin := lx.m_begin + 1 }
    else some (false, lx)

/-- The member `comment_or_slash()` (lexer.cpp, lines 145-158). -/
def Lexer_a.comment_or_slash (buf : List Char) (lx : Lexer_a) : Option (Token × Lexer_a) :=
  let begin_ := lx.m_begin
  match lx.get buf with
  | none => none
  | some (_, lx1) =>
    match lx1.peek buf with
    | none => none
    | some c =>
      if c = '/' then
        match lx1.get buf with
        | none => none
        | some (_, lx2) =>
          let begin2 := lx2.m_begin
          match Lexer_a.comment_loop (buf.drop lx2.m_begin) lx2 with
          | none => none
          | some (true, lx3) =>
            some (Token.ofLen Kind.Comment begin2 ((lx3.m_begin - begin2) - 1), lx3)
          | some (false, lx3) => some (Token.ofLen Kind.Error lx3.m_begin 1, lx3)
      else some (Token.ofLen Kind.Slash begin_ 1, lx1)

/-- The first `k` calls of `next()` on a scanner: the tokens they return, in
order, and the scanner after the last call. -/
def Lexer_a.calls (buf : List Char) : Nat → Lexer_a → Option (List Token × Lexer_a)
  | 0, lx => some ([], lx)
  | k + 1, lx =>
    match lx.next buf with
    | none => none
    | some (t, lx1) =>
      match Lexer_a.calls buf k lx1 with
      | none => none
      | some (ts, lx2) => some (t :: ts, lx2)

/-- The kind and the characters of a token, as a caller prints them. -/
def Token.view (buf : List Char) (t : Token) : Kind × String :=
  (t.kind, String.mk (t.lexeme.chars buf))

/-- The 21 single-character cases of the `switch` of `next()` (lexer.cpp, lines
98-118), each with the kind its `atom` call is given. -/
def punctuation : List (Char × Kind) :=
  [('(', Kind.LeftParen), (')', Kind.RightParen), ('[', Kind.LeftSquare),
   (']', Kind.RightSquare), ('\x7b', Kind.LeftCurly), ('\x7d', Kind.RightCurly),
   ('<', Kind.LessThan), ('>', Kind.GreaterThan), ('=', Kind.Equal), ('+', Kind.Plus),
   ('-', Kind.Minus), ('*', Kind.Asterisk), ('/', Kind.Slash), ('#', Kind.Hash),
   ('.', Kind.Dot), (',', Kind.Comma), (':', Kind.Colon), (';', Kind.Semicolon),
   ('\x27', Kind.SingleQuote), ('\x22', Kind.DoubleQuote), ('|', Kind.Pipe)]

/-- The consumption loop, calling `next()` until it returns a token of kind
`End`: the tokens returned before that one, in order.  `fuel` bounds the number
of calls; the result is `none` when the bound is reached or a call reads outside
the memory. -/
def Lexer_a.tokens_before_End (buf : List Char) : Nat → Lexer_a → Option (List Token)
  | 0, _ => none
  | fuel + 1, lx =>
    match lx.next buf with
    | none => none
    | some (t, lx1) =>
      if t.kind = Kind.End then some []
      else
        match Lexer_a.tokens_before_End buf fuel lx1 with
        | none => none
        | some ts => some (t :: ts)

/-- The lexemes of the tokens are slices of the first `n` characters, disjoint
and in increasing order, none starting before `pos`: each lexeme has a start
offset at or after the end of the one before it, and the last ends at or before
`n`. -/
def spans_in_order (n : Nat) : Nat → List Token → Bool
  | pos, [] => decide (pos ≤ n)
  | pos, t :: ts =>
    match t.lexeme.data with
    | none => false
    | some beg => decide (pos ≤ beg) && spans_in_order n (beg + t.lexeme.size) ts

/-- The gaps the lexemes of the tokens leave in `s` from offset `pos` on: before
each token the characters between the end of the lexeme before it (or `pos`)
and its start, and after the last token the rest of `s`. -/
def gaps (s : List Char) : Nat → List Token → List (List Char)
  | pos, [] => [s.drop pos]
  | pos, t :: ts =>
    match t.lexeme.data with
    | none => (s.drop pos).take 0 :: gaps s pos ts
    | some beg => (s.drop pos).take (beg - pos) :: gaps s (beg + t.lexeme.size) ts

/-- The concatenation `gap0 ++ lexeme1 ++ gap1 ++ ... ++ lexemen ++ gapn`. -/
def weave : List (List Char) → List (List Char) → List Char
  | g :: gs, l :: ls => g ++ l ++ weave gs ls
  | g :: _, [] => g
  | [], _ => []

/-- The kinds and lexeme contents of the tokens the consumption loop returns
from the scanner `lx` on the memory `buf`, up to but not including the first
`End`. -/
def Lexer_a.views (buf : List Char) (fuel : Nat) (lx : Lexer_a) : Option (List (Kind × String)) :=
  (Lexer_a.tokens_before_End buf fuel lx).map (fun ts => ts.map (Token.view buf))

/-- The list `toks(s)`: the kinds and lexeme contents of the tokens `next()`
returns on the input `s` followed by the terminator, from the start of `s` up to
but not including the first `End`.  The number of calls is bounded by the length
of `s` plus one. -/
def toks (s : List Char) : Option (List (Kind × String)) :=
  Lexer_a.views (s ++ ['\x00']) (s.length + 1) { m_begin := 0 }

/-- The token `t` with its span moved `k` positions to the right. -/
def Token.shift (k : Nat) (t : Token) : Token :=
  { m_kind := t.m_kind,
    m_lexeme := { data := t.m_lexeme.data.map (fun b => k + b), size := t.m_lexeme.size } }

/-- The result of a call, moved `k` positions to the right. -/
def shift_result (k : Nat) (r : Token × Lexer_a) : Token × Lexer_a :=
  (r.1.shift k, { m_begin := k + r.2.m_begin })

/-! # Theorems -/

/-! ## Character classes -/

theorem is_space_toNat_le {c : Char} (h : is_space c = true) : c.toNat ≤ 32 := by
  simp only [is_space, std_isspace, Bool.or_eq_true, beq_iff_eq] at h
  rcases h with ((((h | h) | h) | h) | h) | h <;> subst h <;> decide

theorem is_space_ne_zero {c : Char} (h : is_space c = true) : c ≠ '\x00' := by
  rintro rfl
  revert h
  decide

theorem is_digit_toNat {c : Char} (h : is_digit c = true) : 48 ≤ c.toNat ∧ c.toNat ≤ 57 := by
  simpa [is_digit, std_isdigit] using h

theorem is_identifier_char_toNat {c : Char} (h : is_identifier_char c = true) :
    48 ≤ c.toNat := by
  simp only [is_identifier_char, std_isalnum, std_isalpha, std_isdigit, Bool.or_eq_true,
    Bool.and_eq_true, decide_eq_true_eq, beq_iff_eq] at h
  rcases h with ((h | h) | h) | h
  · have : 'A'.toNat = 65 := rfl
    omega
  · have : 'a'.toNat = 97 := rfl
    omega
  · have : '0'.toNat = 48 := rfl
    omega
  · subst h; decide

theorem is_digit_is_identifier_char {c : Char} (h : is_digit c = true) :
    is_identifier_char c = true := by
  simp only [is_digit] at h
  simp [is_identifier_char, std_isalnum, h]

theorem is_identifier_char_not_space {c : Char} (h : is_identifier_char c = true) :
    is_space c = false := by
  cases hs : is_space c
  · rfl
  · have h1 := is_space_toNat_le hs
    have h2 := is_identifier_char_toNat h
    omega

theorem is_digit_not_space {c : Char} (h : is_digit c = true) : is_space c = false :=
  is_identifier_char_not_space (is_digit_is_identifier_char h)

theorem is_identifier_char_ne_zero {c : Char} (h : is_identifier_char c = true) :
    c ≠ '\x00' := by
  rintro rfl
  revert h
  decide

theorem punctuation_facts :
    ∀ p ∈ punctuation, is_space p.1 = false ∧ is_identifier_char p.1 = false ∧
      is_digit p.1 = false ∧ p.1 ≠ '\x00' ∧ p.2 ≠ Kind.End := by
  decide

/-! ## The loop `while (pred(peek())) get();` -/

theorem peek_eq_head (buf : List Char) (lx : Lexer_a) :
    lx.peek buf = (buf.drop lx.m_begin).head? := by
  simp [Lexer_a.peek, List.head?_drop]

/-- One turn of the loop, in terms of `peek` and `get` on the whole memory. -/
theorem get_while_step (pred : Char → Bool) (buf : List Char) (lx : Lexer_a) :
    Lexer_a.get_while pred (buf.drop lx.m_begin) lx =
      match lx.peek buf with
      | none => none
      | some c =>
        if pred c then
          match lx.get buf with
          | none => none
          | some (_, lx1) => Lexer_a.get_while pred (buf.drop lx1.m_begin) lx1
        else some lx := by
  cases hd : buf.drop lx.m_begin with
  | nil =>
    have : buf[lx.m_begin]? = none := by
      have := List.head?_drop buf lx.m_begin
      rw [hd] at this
      simpa using this.symm
    simp [Lexer_a.get_while, Lexer_a.peek, this]
  | cons c mem =>
    have h1 : buf[lx.m_begin]? = some c := by
      have := List.head?_drop buf lx.m_begin
      rw [hd] at this
      simpa using this.symm
    have h2 : buf.drop (lx.m_begin + 1) = mem := by
      have := congrArg List.tail hd
      simpa [List.tail_drop] using this
    simp [Lexer_a.get_while, Lexer_a.peek, Lexer_a.get, h1, h2]

/-- The loop consumes a run of characters that satisfy `pred` and stops at the
first character that does not. -/
theorem get_while_run (pred : Char → Bool) (w : List Char) (c : Char) (mem : List Char)
    (lx : Lexer_a) (hw : ∀ x ∈ w, pred x = true) (hc : pred c = false) :
    Lexer_a.get_while pred (w ++ c :: mem) lx = some { m_begin := lx.m_begin + w.length } := by
  induction w generalizing lx with
  | nil => simp [Lexer_a.get_while, hc]
  | cons x w ih =>
    have hx : pred x = true := hw x (by simp)
    have hw2 : ∀ y ∈ w, pred y = true := fun y hy => hw y (by simp [hy])
    have hstep : Lexer_a.get_while pred ((x :: w) ++ c :: mem) lx =
        Lexer_a.get_while pred (w ++ c :: mem) { m_begin := lx.m_begin + 1 } := by
      simp [Lexer_a.get_while, hx]
    rw [hstep, ih _ hw2]
    have : lx.m_begin + 1 + w.length = lx.m_begin + (x :: w).length := by
      simp only [List.length_cons]
      omega
    rw [this]

/-- The loop run from offset `pre.length` of the memory `pre ++ w ++ c :: mem`. -/
theorem get_while_at (pred : Char → Bool) (pre w : List Char) (c : Char) (mem : List Char)
    (hw : ∀ x ∈ w, pred x = true) (hc : pred c = false) :
    Lexer_a.get_while pred ((pre ++ w ++ c :: mem).drop pre.length) { m_begin := pre.length } =
      some { m_begin := pre.length + w.length } := by
  have : (pre ++ w ++ c :: mem).drop pre.length = w ++ c :: mem := by
    simp [List.append_assoc]
  rw [this]
  exact get_while_run pred w c mem _ hw hc

theorem peek_at (pre : List Char) (c : Char) (mem : List Char) :
    Lexer_a.peek (pre ++ c :: mem) { m_begin := pre.length } = some c := by
  have : (pre ++ c :: mem)[pre.length]? = some c := by
    rw [List.getElem?_append_right (Nat.le_refl _)]
    simp
  simpa [Lexer_a.peek] using this

/-! ## The `switch` of `next()` -/

theorem dispatch_zero (buf : List Char) (lx : Lexer_a) :
    lx.dispatch buf '\x00' = some (Token.ofKind Kind.End, lx) := by
  simp [Lexer_a.dispatch]

theorem dispatch_punctuation (buf : List Char) (lx : Lexer_a) :
    ∀ p ∈ punctuation, lx.dispatch buf p.1 = some (lx.atom p.2) := by
  intro p hp
  simp only [punctuation, List.mem_cons, List.mem_singleton, List.not_mem_nil, or_false] at hp
  rcases hp with h | h | h | h | h | h | h | h | h | h | h | h | h | h | h | h | h | h | h | h | h <;>
    subst h <;> rfl

theorem dispatch_default (buf : List Char) (lx : Lexer_a) (c : Char) (h0 : c ≠ '\x00')
    (hp : ∀ p ∈ punctuation, c ≠ p.1) :
    lx.dispatch buf c =
      if is_digit c then lx.number buf
      else if is_identifier_char c then lx.Identifier buf
      else some (Token.ofLen Kind.Error lx.m_begin 1, { m_begin := lx.m_begin + 1 }) := by
  simp only [punctuation, List.mem_cons, List.mem_singleton, List.not_mem_nil, or_false,
    forall_eq_or_imp, forall_eq] at hp
  obtain ⟨h1, h2, h3, h4, h5, h6, h7, h8, h9, h10, h11, h12, h13, h14, h15, h16, h17, h18,
    h19, h20, h21⟩ := hp
  simp only [Lexer_a.dispatch, h0, h1, h2, h3, h4, h5, h6, h7, h8, h9, h10, h11, h12, h13, h14,
    h15, h16, h17, h18, h19, h20, h21, if_false]

theorem dispatch_digit (buf : List Char) (lx : Lexer_a) (c : Char) (h : is_digit c = true) :
    lx.dispatch buf c = lx.number buf := by
  have hi := is_digit_is_identifier_char h
  rw [dispatch_default buf lx c (is_identifier_char_ne_zero hi)]
  · simp [h]
  · intro p hp hcp
    have := (punctuation_facts p hp).2.2.1
    rw [← hcp, h] at this
    cases this

theorem dispatch_identifier (buf : List Char) (lx : Lexer_a) (c : Char)
    (h : is_identifier_char c = true) (hd : is_digit c = false) :
    lx.dispatch buf c = lx.Identifier buf := by
  rw [dispatch_default buf lx c (is_identifier_char_ne_zero h)]
  · simp [h, hd]
  · intro p hp hcp
    have := (punctuation_facts p hp).2.1
    rw [← hcp, h] at this
    cases this

/-! ## Single tokens -/

/-- The scanner at the terminator: `next()` returns `Token(Kind::End)` and does
not move. -/
theorem next_at_terminator (pre rest : List Char) :
    Lexer_a.next (pre ++ '\x00' :: rest) { m_begin := pre.length } =
      some (Token.ofKind Kind.End, { m_begin := pre.length }) := by
  have h := get_while_at is_space pre [] '\x00' rest (by simp) (by decide)
  simp only [List.append_nil, List.length_nil, Nat.add_zero] at h
  simp only [Lexer_a.next, h, peek_at, dispatch_zero]

/-- The scanner before a run of whitespace that ends at the terminator. -/
theorem next_whitespace_End (pre w rest : List Char) (hw : ∀ x ∈ w, is_space x = true) :
    Lexer_a.next (pre ++ w ++ '\x00' :: rest) { m_begin := pre.length } =
      some (Token.ofKind Kind.End, { m_begin := pre.length + w.length }) := by
  have h := get_while_at is_space pre w '\x00' rest hw (by decide)
  have hp := peek_at (pre ++ w) '\x00' rest
  simp only [List.length_append] at hp
  simp only [Lexer_a.next, h, hp, dispatch_zero]

/-- The scanner before a run of whitespace followed by a character `c` that is
not whitespace: `next()` is the `switch` on `c` with the cursor at `c`. -/
theorem next_skip (pre w : List Char) (c : Char) (mem : List Char)
    (hw : ∀ x ∈ w, is_space x = true) (hc : is_space c = false) :
    Lexer_a.next (pre ++ w ++ c :: mem) { m_begin := pre.length } =
      Lexer_a.dispatch (pre ++ w ++ c :: mem) { m_begin := pre.length + w.length } c := by
  have h := get_while_at is_space pre w c mem hw hc
  have hp := peek_at (pre ++ w) c mem
  simp only [List.length_append] at hp
  simp only [Lexer_a.next, h, hp]

/-- C1. For each of the 21 punctuation characters, on the memory that holds that
character and then the terminator, the first `next()` returns the token of the
matching kind whose lexeme is that one character, and the second `next()`
returns `End`. -/
theorem next_punctuation (rest : List Char) :
    ∀ p ∈ punctuation,
      Lexer_a.next (p.1 :: '\x00' :: rest) { m_begin := 0 } =
        some (Token.ofLen p.2 0 1, { m_begin := 1 }) ∧
      (Token.ofLen p.2 0 1).kind = p.2 ∧
      (Token.ofLen p.2 0 1).lexeme.size = 1 ∧
      (Token.ofLen p.2 0 1).lexeme.chars (p.1 :: '\x00' :: rest) = [p.1] ∧
      Lexer_a.next (p.1 :: '\x00' :: rest) { m_begin := 1 } =
        some (Token.ofKind Kind.End, { m_begin := 1 }) ∧
      (Token.ofKind Kind.End).kind = Kind.End := by
  intro p hp
  have hf := punctuation_facts p hp
  have h1 := next_skip [] [] p.1 ('\x00' :: rest) (by simp) hf.1
  have h2 := next_at_terminator [p.1] rest
  simp only [List.nil_append, List.length_nil, Nat.add_zero] at h1
  simp only [List.singleton_append, List.length_singleton] at h2
  refine ⟨?_, rfl, rfl, ?_, h2, rfl⟩
  · rw [h1, dispatch_punctuation _ _ p hp]
    rfl
  · simp [Token.lexeme, Token.ofLen, StringView.chars]

theorem next_punctuation_witness :
    (('\x7b', Kind.LeftCurly) ∈ punctuation) ∧
      Lexer_a.next ['\x7b', '\x00'] { m_begin := 0 } =
        some (Token.ofLen Kind.LeftCurly 0 1, { m_begin := 1 }) ∧
      (Token.ofLen Kind.LeftCurly 0 1).kind = Kind.LeftCurly ∧
      (Token.ofLen Kind.LeftCurly 0 1).lexeme.size = 1 ∧
      (Token.ofLen Kind.LeftCurly 0 1).lexeme.chars ['\x7b', '\x00'] = ['\x7b'] ∧
      Lexer_a.next ['\x7b', '\x00'] { m_begin := 1 } =
        some (Token.ofKind Kind.End, { m_begin := 1 }) ∧
      (Token.ofKind Kind.End).kind = Kind.End :=
  ⟨by decide, next_punctuation [] ('\x7b', Kind.LeftCurly) (by decide)⟩

/-- C5. The input `var f{3}` followed by the terminator: the first six calls of
`next()` return `Identifier "var"`, `Identifier "f"`, `LeftCurly`, `Number "3"`,
`RightCurly` and `End`. -/
theorem tokens_var_f_3 :
    (Lexer_a.calls ("var f\x7b3\x7d".toList ++ ['\x00']) 6 { m_begin := 0 }).map
        (fun r => r.1.map (Token.view ("var f\x7b3\x7d".toList ++ ['\x00']))) =
      some [(Kind.Identifier, "var"), (Kind.Identifier, "f"), (Kind.LeftCurly, "\x7b"),
        (Kind.Number, "3"), (Kind.RightCurly, "\x7d"), (Kind.End, "")] := by
  decide

/-- C4. On the input `x = 2`, newline, `// c`, newline, terminator, `next()`
returns `Identifier "x"`, `Equal`, `Number "2"`, then two `Slash` tokens and
`Identifier "c"`, then `End`: no `Comment` token.  The member
`comment_or_slash()` with the cursor at the first `/` (offset 6) does return the
`Comment` token with lexeme ` c` and moves the cursor to the terminator. -/
theorem tokens_x_eq_2_comment :
    (Lexer_a.calls ("x = 2\n// c\n".toList ++ ['\x00']) 7 { m_begin := 0 }).map
        (fun r => r.1.map (Token.view ("x = 2\n// c\n".toList ++ ['\x00']))) =
      some [(Kind.Identifier, "x"), (Kind.Equal, "="), (Kind.Number, "2"),
        (Kind.Slash, "/"), (Kind.Slash, "/"), (Kind.Identifier, "c"), (Kind.End, "")] ∧
    (Lexer_a.comment_or_slash ("x = 2\n// c\n".toList ++ ['\x00']) { m_begin := 6 }).map
        (fun r => (Token.view ("x = 2\n// c\n".toList ++ ['\x00']) r.1, r.2)) =
      some ((Kind.Comment, " c"), { m_begin := 11 }) := by
  decide

/-- C10. The template overload of `is_either` drops its second argument: with
three kinds or more, the result is whether the kind of the token is the first
or the last of them.  A token of kind `Error` tested against `End`, `Error`,
`Comment` gives `false`, although `Error` is one of the three. -/
theorem is_either_drops_middle (t : Token) (k1 k2 k3 : Kind) (kinds : List Kind) :
    t.is_either k1 k2 (k3 :: kinds) =
        (t.kind == k1 || t.kind == (k3 :: kinds).getLast (List.cons_ne_nil _ _)) ∧
    (Token.ofKind Kind.Error).is_either Kind.End Kind.Error [Kind.Comment] = false ∧
    (Token.ofKind Kind.Error).kind ∈ [Kind.End, Kind.Error, Kind.Comment] := by
  refine ⟨?_, by decide, by decide⟩
  induction kinds generalizing k2 k3 with
  | nil => simp [Token.is_either, Token.is, Token.kind]
  | cons k4 kinds ih =>
    have := ih k3 k4
    simp only [Token.is_either, Token.is, Token.kind] at this ⊢
    rw [this]
    simp [List.getLast_cons]

/-! ## Runs: `number()` and `Identifier()` -/

theorem get_at (pre : List Char) (c : Char) (mem : List Char) :
    Lexer_a.get (pre ++ c :: mem) { m_begin := pre.length } =
      some (c, { m_begin := pre.length + 1 }) := by
  have : (pre ++ c :: mem)[pre.length]? = some c := by
    rw [List.getElem?_append_right (Nat.le_refl _)]
    simp
  simp [Lexer_a.get, this]

/-- With the cursor at `c0`, followed by a run `run` of digits and then a
character `c` that is not a digit, `number()` returns the token that spans `c0`
and the run, and stops at `c`. -/
theorem number_run (pre : List Char) (c0 : Char) (run : List Char) (c : Char) (mem : List Char)
    (hrun : ∀ x ∈ run, is_digit x = true) (hc : is_digit c = false) :
    Lexer_a.number (pre ++ c0 :: (run ++ c :: mem)) { m_begin := pre.length } =
      some (Token.ofRange Kind.Number pre.length (pre.length + 1 + run.length),
        { m_begin := pre.length + 1 + run.length }) := by
  have hg := get_at pre c0 (run ++ c :: mem)
  have hw := get_while_at is_digit (pre ++ [c0]) run c mem hrun hc
  have hb : pre ++ [c0] ++ run ++ c :: mem = pre ++ c0 :: (run ++ c :: mem) := by simp
  simp only [hb, List.length_append, List.length_singleton] at hw
  simp only [Lexer_a.number, hg, hw]

/-- The same for `Identifier()` and a run of identifier characters. -/
theorem Identifier_run (pre : List Char) (c0 : Char) (run : List Char) (c : Char)
    (mem : List Char) (hrun : ∀ x ∈ run, is_identifier_char x = true)
    (hc : is_identifier_char c = false) :
    Lexer_a.Identifier (pre ++ c0 :: (run ++ c :: mem)) { m_begin := pre.length } =
      some (Token.ofRange Kind.Identifier pre.length (pre.length + 1 + run.length),
        { m_begin := pre.length + 1 + run.length }) := by
  have hg := get_at pre c0 (run ++ c :: mem)
  have hw := get_while_at is_identifier_char (pre ++ [c0]) run c mem hrun hc
  have hb : pre ++ [c0] ++ run ++ c :: mem = pre ++ c0 :: (run ++ c :: mem) := by simp
  simp only [hb, List.length_append, List.length_singleton] at hw
  simp only [Lexer_a.Identifier, hg, hw]

/-- The characters of a token built from a range that covers the part `mid` of
the memory `pre ++ mid ++ mem`. -/
theorem ofRange_chars (kind : Kind) (pre mid mem : List Char) :
    (Token.ofRange kind pre.length (pre.length + mid.length)).lexeme.chars (pre ++ mid ++ mem) =
      mid := by
  simp [Token.lexeme, Token.ofRange, StringView.chars, List.append_assoc]

/-- A run of whitespace followed by the terminator starts with a character that
is neither a digit nor an identifier character. -/
theorem whitespace_terminated_head (w rest : List Char) (hw : ∀ x ∈ w, is_space x = true) :
    ∃ c mem, w ++ '\x00' :: rest = c :: mem ∧ is_digit c = false ∧
      is_identifier_char c = false := by
  cases w with
  | nil => exact ⟨'\x00', rest, rfl, by decide, by decide⟩
  | cons x w =>
    have hx : is_space x = true := hw x (by simp)
    have hi : is_identifier_char x = false := by
      cases h : is_identifier_char x
      · rfl
      · rw [is_identifier_char_not_space h] at hx
        cases hx
    have hd : is_digit x = false := by
      cases h : is_digit x
      · rfl
      · rw [is_digit_is_identifier_char h] at hi
        cases hi
    exact ⟨x, w ++ '\x00' :: rest, rfl, hd, hi⟩

/-- C2. For a non-empty string `d` of decimal digits between two whitespace
strings `w1` and `w2`, followed by the terminator, the first `next()` returns a
`Number` token whose lexeme is the whole of `d`, and the second `next()` returns
`End`. -/
theorem next_number (d w1 w2 rest : List Char) (hne : d ≠ [])
    (hd : ∀ x ∈ d, is_digit x = true) (hw1 : ∀ x ∈ w1, is_space x = true)
    (hw2 : ∀ x ∈ w2, is_space x = true) :
    Lexer_a.next (w1 ++ d ++ w2 ++ '\x00' :: rest) { m_begin := 0 } =
        some (Token.ofRange Kind.Number w1.length (w1.length + d.length),
          { m_begin := w1.length + d.length }) ∧
      (Token.ofRange Kind.Number w1.length (w1.length + d.length)).kind = Kind.Number ∧
      (Token.ofRange Kind.Number w1.length (w1.length + d.length)).lexeme.chars
          (w1 ++ d ++ w2 ++ '\x00' :: rest) = d ∧
      Lexer_a.next (w1 ++ d ++ w2 ++ '\x00' :: rest) { m_begin := w1.length + d.length } =
        some (Token.ofKind Kind.End, { m_begin := w1.length + d.length + w2.length }) ∧
      (Token.ofKind Kind.End).kind = Kind.End := by
  cases d with
  | nil => exact absurd rfl hne
  | cons d0 dt =>
    have hd0 : is_digit d0 = true := hd d0 (by simp)
    have hdt : ∀ x ∈ dt, is_digit x = true := fun x hx => hd x (by simp [hx])
    obtain ⟨c, mem, hcm, hcd, _⟩ := whitespace_terminated_head w2 rest hw2
    have hb : w1 ++ d0 :: dt ++ w2 ++ '\x00' :: rest = w1 ++ d0 :: (dt ++ c :: mem) := by
      simp [List.append_assoc, hcm]
    refine ⟨?_, rfl, ?_, ?_, rfl⟩
    · have h1 := next_skip [] w1 d0 (dt ++ c :: mem) hw1 (is_digit_not_space hd0)
      simp only [List.nil_append, List.length_nil, Nat.zero_add] at h1
      rw [hb, h1, dispatch_digit _ _ _ hd0, number_run w1 d0 dt c mem hdt hcd]
      simp [Nat.add_assoc, Nat.add_comm 1]
    · have := ofRange_chars Kind.Number w1 (d0 :: dt) (w2 ++ '\x00' :: rest)
      simpa [List.append_assoc] using this
    · have := next_whitespace_End (w1 ++ d0 :: dt) w2 rest hw2
      simpa [List.append_assoc] using this

theorem next_number_witness :
    Lexer_a.next (" \t".toList ++ "2024".toList ++ "\n".toList ++ '\x00' :: [])
        { m_begin := 0 } =
        some (Token.ofRange Kind.Number 2 (2 + 4), { m_begin := 2 + 4 }) ∧
      (Token.ofRange Kind.Number 2 (2 + 4)).kind = Kind.Number ∧
      (Token.ofRange Kind.Number 2 (2 + 4)).lexeme.chars
          (" \t".toList ++ "2024".toList ++ "\n".toList ++ '\x00' :: []) = "2024".toList ∧
      Lexer_a.next (" \t".toList ++ "2024".toList ++ "\n".toList ++ '\x00' :: [])
          { m_begin := 2 + 4 } =
        some (Token.ofKind Kind.End, { m_begin := 2 + 4 + 1 }) ∧
      (Token.ofKind Kind.End).kind = Kind.End :=
  next_number "2024".toList " \t".toList "\n".toList [] (by decide) (by decide) (by decide)
    (by decide)

/-- C3. For a non-empty string `s` of letters, digits and underscores whose
first character is not a digit, followed by the terminator, the first `next()`
returns an `Identifier` token whose lexeme is the whole of `s`, and the second
`next()` returns `End`. -/
theorem next_identifier (s rest : List Char) (hne : s ≠ [])
    (hs : ∀ x ∈ s, is_identifier_char x = true)
    (hfirst : ∀ x, s.head? = some x → is_digit x = false) :
    Lexer_a.next (s ++ '\x00' :: rest) { m_begin := 0 } =
        some (Token.ofRange Kind.Identifier 0 s.length, { m_begin := s.length }) ∧
      (Token.ofRange Kind.Identifier 0 s.length).kind = Kind.Identifier ∧
      (Token.ofRange Kind.Identifier 0 s.length).lexeme.chars (s ++ '\x00' :: rest) = s ∧
      Lexer_a.next (s ++ '\x00' :: rest) { m_begin := s.length } =
        some (Token.ofKind Kind.End, { m_begin := s.length }) ∧
      (Token.ofKind Kind.End).kind = Kind.End := by
  cases s with
  | nil => exact absurd rfl hne
  | cons c0 run =>
    have hc0 : is_identifier_char c0 = true := hs c0 (by simp)
    have hc0d : is_digit c0 = false := hfirst c0 rfl
    have hrun : ∀ x ∈ run, is_identifier_char x = true := fun x hx => hs x (by simp [hx])
    refine ⟨?_, rfl, ?_, ?_, rfl⟩
    · have h1 := next_skip [] [] c0 (run ++ '\x00' :: rest) (by simp)
        (is_identifier_char_not_space hc0)
      simp only [List.nil_append, List.length_nil, Nat.zero_add, Nat.add_zero] at h1
      have h2 := Identifier_run [] c0 run '\x00' rest hrun (by decide)
      simp only [List.nil_append, List.length_nil, Nat.zero_add] at h2
      rw [List.cons_append, h1, dispatch_identifier _ _ _ hc0 hc0d, h2]
      simp [Nat.add_comm 1]
    · have := ofRange_chars Kind.Identifier [] (c0 :: run) ('\x00' :: rest)
      simpa using this
    · exact next_at_terminator (c0 :: run) rest

theorem next_identifier_witness :
    Lexer_a.next ("_x9Z".toList ++ '\x00' :: []) { m_begin := 0 } =
        some (Token.ofRange Kind.Identifier 0 "_x9Z".toList.length,
          { m_begin := "_x9Z".toList.length }) ∧
      (Token.ofRange Kind.Identifier 0 "_x9Z".toList.length).kind = Kind.Identifier ∧
      (Token.ofRange Kind.Identifier 0 "_x9Z".toList.length).lexeme.chars
          ("_x9Z".toList ++ '\x00' :: []) = "_x9Z".toList ∧
      Lexer_a.next ("_x9Z".toList ++ '\x00' :: []) { m_begin := "_x9Z".toList.length } =
        some (Token.ofKind Kind.End, { m_begin := "_x9Z".toList.length }) ∧
      (Token.ofKind Kind.End).kind = Kind.End :=
  next_identifier "_x9Z".toList [] (by decide) (by decide) (by decide)

/-! ## End of input and unrecognized characters -/

/-- At the terminator every further call returns `End` and the cursor stays. -/
theorem calls_at_terminator (pre rest : List Char) (k : Nat) :
    Lexer_a.calls (pre ++ '\x00' :: rest) k { m_begin := pre.length } =
      some (List.replicate k (Token.ofKind Kind.End), { m_begin := pre.length }) := by
  induction k with
  | zero => rfl
  | succ k ih => simp [Lexer_a.calls, next_at_terminator, ih, List.replicate_succ]

/-- C7. From a state whose remaining input up to the terminator is whitespace
only, `next()` returns `End` with an empty lexeme and leaves the cursor at the
terminator; from the terminator `next()` returns `End` with an empty lexeme and
does not move the cursor, and so does every later call. -/
theorem next_End_idempotent (pre w rest : List Char) (hw : ∀ x ∈ w, is_space x = true) :
    Lexer_a.next (pre ++ w ++ '\x00' :: rest) { m_begin := pre.length } =
        some (Token.ofKind Kind.End, { m_begin := pre.length + w.length }) ∧
      (pre ++ w ++ '\x00' :: rest)[pre.length + w.length]? = some '\x00' ∧
      (Token.ofKind Kind.End).kind = Kind.End ∧
      (Token.ofKind Kind.End).lexeme.size = 0 ∧
      (Token.ofKind Kind.End).lexeme.chars (pre ++ w ++ '\x00' :: rest) = [] ∧
      Lexer_a.next (pre ++ w ++ '\x00' :: rest) { m_begin := pre.length + w.length } =
        some (Token.ofKind Kind.End, { m_begin := pre.length + w.length }) ∧
      ∀ k, Lexer_a.calls (pre ++ w ++ '\x00' :: rest) k { m_begin := pre.length + w.length } =
        some (List.replicate k (Token.ofKind Kind.End), { m_begin := pre.length + w.length }) := by
  have hlen : (pre ++ w).length = pre.length + w.length := List.length_append _ _
  refine ⟨next_whitespace_End pre w rest hw, ?_, rfl, rfl, rfl, ?_, ?_⟩
  · have := peek_at (pre ++ w) '\x00' rest
    simpa [Lexer_a.peek, hlen] using this
  · have := next_at_terminator (pre ++ w) rest
    simpa only [hlen] using this
  · intro k
    have := calls_at_terminator (pre ++ w) rest k
    simpa only [hlen] using this

theorem next_End_idempotent_witness :
    Lexer_a.next ("ab".toList ++ " \n".toList ++ '\x00' :: "junk".toList)
        { m_begin := "ab".toList.length } =
        some (Token.ofKind Kind.End, { m_begin := "ab".toList.length + " \n".toList.length }) ∧
      ("ab".toList ++ " \n".toList ++ '\x00' :: "junk".toList)[
        "ab".toList.length + " \n".toList.length]? = some '\x00' ∧
      (Token.ofKind Kind.End).kind = Kind.End ∧
      (Token.ofKind Kind.End).lexeme.size = 0 ∧
      (Token.ofKind Kind.End).lexeme.chars
        ("ab".toList ++ " \n".toList ++ '\x00' :: "junk".toList) = [] ∧
      Lexer_a.next ("ab".toList ++ " \n".toList ++ '\x00' :: "junk".toList)
          { m_begin := "ab".toList.length + " \n".toList.length } =
        some (Token.ofKind Kind.End, { m_begin := "ab".toList.length + " \n".toList.length }) ∧
      ∀ k, Lexer_a.calls ("ab".toList ++ " \n".toList ++ '\x00' :: "junk".toList) k
          { m_begin := "ab".toList.length + " \n".toList.length } =
        some (List.replicate k (Token.ofKind Kind.End),
          { m_begin := "ab".toList.length + " \n".toList.length }) :=
  next_End_idempotent "ab".toList " \n".toList "junk".toList (by decide)

/-- C8. When the first character at or after the cursor that is not whitespace
is `c`, and `c` is not the terminator, not one of the 21 punctuation characters,
not a digit, not a letter and not the underscore, `next()` returns an `Error`
token whose lexeme is the one character `c`, and leaves the cursor one past
`c`. -/
theorem next_unrecognized (pre w : List Char) (c : Char) (mem : List Char)
    (hw : ∀ x ∈ w, is_space x = true) (hs : is_space c = false) (h0 : c ≠ '\x00')
    (hp : ∀ p ∈ punctuation, c ≠ p.1) (hd : is_digit c = false)
    (ha : std_isalpha c = false) (hu : c ≠ '_') :
    Lexer_a.next (pre ++ w ++ c :: mem) { m_begin := pre.length } =
        some (Token.ofLen Kind.Error (pre.length + w.length) 1,
          { m_begin := pre.length + w.length + 1 }) ∧
      (Token.ofLen Kind.Error (pre.length + w.length) 1).kind = Kind.Error ∧
      (Token.ofLen Kind.Error (pre.length + w.length) 1).lexeme.size = 1 ∧
      (Token.ofLen Kind.Error (pre.length + w.length) 1).lexeme.chars (pre ++ w ++ c :: mem) =
        [c] := by
  have hi : is_identifier_char c = false := by
    simp only [is_digit] at hd
    simp [is_identifier_char, std_isalnum, ha, hd, hu]
  refine ⟨?_, rfl, rfl, ?_⟩
  · rw [next_skip pre w c mem hw hs, dispatch_default _ _ c h0 hp]
    simp [hd, hi]
  · have : ((pre ++ w) ++ c :: mem).drop (pre ++ w).length = c :: mem :=
      List.drop_left _ _
    rw [List.length_append] at this
    simp [Token.lexeme, Token.ofLen, StringView.chars, this]

theorem next_unrecognized_witness :
    Lexer_a.next ("x".toList ++ " ".toList ++ '@' :: ['y', '\x00'])
        { m_begin := "x".toList.length } =
        some (Token.ofLen Kind.Error ("x".toList.length + " ".toList.length) 1,
          { m_begin := "x".toList.length + " ".toList.length + 1 }) ∧
      (Token.ofLen Kind.Error ("x".toList.length + " ".toList.length) 1).kind = Kind.Error ∧
      (Token.ofLen Kind.Error ("x".toList.length + " ".toList.length) 1).lexeme.size = 1 ∧
      (Token.ofLen Kind.Error ("x".toList.length + " ".toList.length) 1).lexeme.chars
        ("x".toList ++ " ".toList ++ '@' :: ['y', '\x00']) = ['@'] :=
  next_unrecognized "x".toList " ".toList '@' ['y', '\x00'] (by decide) (by decide) (by decide)
    (by decide) (by decide) (by decide) (by decide)

/-! ## One call of `next()` on a null-terminated input -/

/-- A list splits into a run of characters that satisfy `pred` and a remainder
that does not start with such a character. -/
theorem split_run (pred : Char → Bool) (r : List Char) :
    ∃ run r2, r = run ++ r2 ∧ (∀ x ∈ run, pred x = true) ∧
      ∀ c, r2.head? = some c → pred c = false := by
  induction r with
  | nil => exact ⟨[], [], rfl, by simp, by simp⟩
  | cons x r ih =>
    cases hx : pred x
    · exact ⟨[], x :: r, rfl, by simp, by
        intro c hc
        simp only [List.head?_cons, Option.some.injEq] at hc
        rw [← hc, hx]⟩
    · obtain ⟨run, r2, hr, hrun, hr2⟩ := ih
      refine ⟨x :: run, r2, by simp [hr], ?_, hr2⟩
      intro y hy
      simp only [List.mem_cons] at hy
      rcases hy with rfl | hy
      · exact hx
      · exact hrun y hy

/-- A remainder that does not start with a `pred` character, followed by the
terminator, starts with a character that does not satisfy `pred`. -/
theorem terminated_head (pred : Char → Bool) (h0 : pred '\x00' = false) (r2 rest : List Char)
    (h : ∀ c, r2.head? = some c → pred c = false) :
    ∃ c mem, r2 ++ '\x00' :: rest = c :: mem ∧ pred c = false := by
  cases r2 with
  | nil => exact ⟨'\x00', rest, rfl, h0⟩
  | cons x r2 => exact ⟨x, r2 ++ '\x00' :: rest, rfl, h x rfl⟩

/-- One call of `next()` with the cursor before a whitespace run `w` and a
remainder `r2` that holds no terminator and does not start with whitespace,
followed by the terminator.  Either `r2` is empty and the call returns `End` at
the terminator, or it returns a token of another kind whose span starts at the
first character of `r2`, is not empty, lies inside `r2` and holds no
whitespace, with the cursor at the end of the span. -/
theorem next_shape (pre w r2 rest : List Char) (hw : ∀ x ∈ w, is_space x = true)
    (hr2 : ∀ c, r2.head? = some c → is_space c = false) (h0 : '\x00' ∉ r2) :
    ∃ t pos, Lexer_a.next (pre ++ w ++ (r2 ++ '\x00' :: rest)) { m_begin := pre.length } =
        some (t, { m_begin := pos }) ∧
      ((r2 = [] ∧ t = Token.ofKind Kind.End ∧ pos = pre.length + w.length) ∨
       (∃ len, 0 < len ∧ len ≤ r2.length ∧ t.m_kind ≠ Kind.End ∧
          t.m_lexeme = { data := some (pre.length + w.length), size := len } ∧
          pos = pre.length + w.length + len ∧ ∀ c ∈ r2.take len, is_space c = false)) := by
  cases r2 with
  | nil =>
    exact ⟨_, _, next_whitespace_End pre w rest hw, Or.inl ⟨rfl, rfl, rfl⟩⟩
  | cons c r3 =>
    have hcs : is_space c = false := hr2 c rfl
    have hc0 : c ≠ '\x00' := by
      intro h
      exact h0 (by simp [h])
    have hlen : (pre ++ w).length = pre.length + w.length := List.length_append _ _
    rw [List.cons_append, next_skip pre w c (r3 ++ '\x00' :: rest) hw hcs]
    by_cases hp : ∃ p ∈ punctuation, c = p.1
    · obtain ⟨p, hp, rfl⟩ := hp
      refine ⟨_, _, dispatch_punctuation _ _ p hp, Or.inr ⟨1, by simp, by simp, ?_, rfl, rfl, ?_⟩⟩
      · exact (punctuation_facts p hp).2.2.2.2
      · simpa using hcs
    · have hp2 : ∀ p ∈ punctuation, c ≠ p.1 := fun p hp1 hcp => hp ⟨p, hp1, hcp⟩
      rw [dispatch_default _ _ c hc0 hp2]
      by_cases hd : is_digit c = true
      · obtain ⟨run, r4, hr, hrun, hr4⟩ := split_run is_digit r3
        obtain ⟨c2, mem, hcm, hc2⟩ := terminated_head is_digit (by decide) r4 rest hr4
        have hb : r3 ++ '\x00' :: rest = run ++ c2 :: mem := by
          rw [hr, List.append_assoc, hcm]
        have hn := number_run (pre ++ w) c run c2 mem hrun hc2
        rw [hlen] at hn
        have hb2 : pre ++ w ++ c :: (r3 ++ '\x00' :: rest) =
            pre ++ w ++ c :: (run ++ c2 :: mem) := by rw [hb]
        rw [hb2, if_pos hd]
        refine ⟨_, _, hn, Or.inr ⟨1 + run.length, by omega, ?_, ?_, ?_, by omega, ?_⟩⟩
        · simp [hr]
          omega
        · simp [Token.ofRange]
        · simp only [Token.ofRange, StringView.mk.injEq, true_and]
          omega
        · intro x hx
          have hx2 : x ∈ c :: run := by
            have : (c :: r3).take (1 + run.length) = c :: run := by
              rw [Nat.add_comm, List.take_succ_cons, hr, List.take_left]
            rwa [this] at hx
          simp only [List.mem_cons] at hx2
          rcases hx2 with rfl | hx2
          · exact hcs
          · exact is_digit_not_space (hrun x hx2)
      · by_cases hi : is_identifier_char c = true
        · obtain ⟨run, r4, hr, hrun, hr4⟩ := split_run is_identifier_char r3
          obtain ⟨c2, mem, hcm, hc2⟩ :=
            terminated_head is_identifier_char (by decide) r4 rest hr4
          have hb : r3 ++ '\x00' :: rest = run ++ c2 :: mem := by
            rw [hr, List.append_assoc, hcm]
          have hn := Identifier_run (pre ++ w) c run c2 mem hrun hc2
          rw [hlen] at hn
          have hb2 : pre ++ w ++ c :: (r3 ++ '\x00' :: rest) =
              pre ++ w ++ c :: (run ++ c2 :: mem) := by rw [hb]
          rw [hb2, if_neg hd, if_pos hi]
          refine ⟨_, _, hn, Or.inr ⟨1 + run.length, by omega, ?_, ?_, ?_, by omega, ?_⟩⟩
          · simp [hr]
            omega
          · simp [Token.ofRange]
          · simp only [Token.ofRange, StringView.mk.injEq, true_and]
            omega
          · intro x hx
            have hx2 : x ∈ c :: run := by
              have : (c :: r3).take (1 + run.length) = c :: run := by
                rw [Nat.add_comm, List.take_succ_cons, hr, List.take_left]
              rwa [this] at hx
            simp only [List.mem_cons] at hx2
            rcases hx2 with rfl | hx2
            · exact hcs
            · exact is_identifier_char_not_space (hrun x hx2)
        · rw [if_neg hd, if_neg hi]
          refine ⟨_, _, rfl, Or.inr ⟨1, by simp, by simp, ?_, rfl, rfl, ?_⟩⟩
          · simp [Token.ofLen]
          · simpa using hcs

/-- One call of `next()` on the input `s` followed by the terminator, from a
cursor `pos` inside it.  The call returns; either it returns `End`, the rest of
`s` is whitespace and the cursor ends at the terminator, or it returns a token
of another kind whose span `[st, st + len)` is not empty, starts after a gap
of whitespace, lies inside `s`, holds no whitespace, and is where the cursor
ends. -/
theorem next_spec (s rest : List Char) (h0 : '\x00' ∉ s) (pos : Nat) (hpos : pos ≤ s.length) :
    ∃ t pos2, Lexer_a.next (s ++ '\x00' :: rest) { m_begin := pos } =
        some (t, { m_begin := pos2 }) ∧
      ((t = Token.ofKind Kind.End ∧ pos2 = s.length ∧ ∀ c ∈ s.drop pos, is_space c = true) ∨
       (∃ st len, pos ≤ st ∧ 0 < len ∧ st + len ≤ s.length ∧ pos2 = st + len ∧
          t.m_kind ≠ Kind.End ∧ t.m_lexeme = { data := some st, size := len } ∧
          (∀ c ∈ (s.drop pos).take (st - pos), is_space c = true) ∧
          ∀ c ∈ (s.drop st).take len, is_space c = false)) := by
  obtain ⟨w, r2, hr, hw, hr2⟩ := split_run is_space (s.drop pos)
  have hs : s = s.take pos ++ (w ++ r2) := by rw [← hr, List.take_append_drop]
  have hpre : (s.take pos).length = pos := by simp [hpos]
  have h0r : '\x00' ∉ r2 := by
    intro h
    apply h0
    rw [hs]
    simp [h]
  have hb : s ++ '\x00' :: rest = s.take pos ++ w ++ (r2 ++ '\x00' :: rest) := by
    conv_lhs => rw [hs]
    simp [List.append_assoc]
  have hslen : s.length = pos + (w.length + r2.length) := by
    have := congrArg List.length hs
    simpa [hpre] using this
  have hdrop : s.drop (pos + w.length) = r2 := by
    rw [← List.drop_drop, hr, List.drop_left]
  obtain ⟨t, p2, hn, hcase⟩ := next_shape (s.take pos) w r2 rest hw hr2 h0r
  rw [hpre] at hn hcase
  refine ⟨t, p2, by rw [hb]; exact hn, ?_⟩
  rcases hcase with ⟨hnil, ht, hp2⟩ | ⟨len, hlen0, hlen, hk, hl, hp2, hns⟩
  · left
    refine ⟨ht, ?_, ?_⟩
    · rw [hp2, hslen, hnil]
      simp
    · rw [hr, hnil]
      simpa using hw
  · right
    refine ⟨pos + w.length, len, by omega, hlen0, by omega, hp2, hk, hl, ?_, ?_⟩
    · have : pos + w.length - pos = w.length := by omega
      rw [this, hr, List.take_left]
      exact hw
    · rw [hdrop]
      exact hns

/-! ## The token stream -/

/-- The view of a span inside `s` reads the same in the memory `s ++ mem`. -/
theorem chars_of_span (s mem : List Char) (t : Token) (st len : Nat)
    (ht : t.m_lexeme = { data := some st, size := len }) (h : st + len ≤ s.length) :
    t.lexeme.chars (s ++ mem) = (s.drop st).take len := by
  have h1 : (s ++ mem).drop st = s.drop st ++ mem :=
    List.drop_append_of_le_length (by omega)
  have h2 : len ≤ (s.drop st).length := by
    rw [List.length_drop]
    omega
  simp only [Token.lexeme, StringView.chars, ht, h1, List.take_append_of_le_length h2]

/-- A gap, a slice after it and what follows the slice make up the rest of the
list. -/
theorem gap_slice_rest (s : List Char) (pos st len : Nat) (h : pos ≤ st) :
    (s.drop pos).take (st - pos) ++ (s.drop st).take len ++ s.drop (st + len) = s.drop pos := by
  have h1 : (s.drop st).take len ++ s.drop (st + len) = s.drop st := by
    rw [← List.drop_drop, List.take_append_drop]
  have h2 : s.drop st = (s.drop pos).drop (st - pos) := by
    rw [List.drop_drop]
    congr 1
    omega
  rw [List.append_assoc, h1, h2, List.take_append_drop]

/-- The consumption loop from a cursor `pos` inside the input `s`: it ends, and
the gaps and lexemes from `pos` on make up `s.drop pos`. -/
theorem tokens_before_End_spec (s rest : List Char) (h0 : '\x00' ∉ s) :
    ∀ m pos, s.length - pos = m → pos ≤ s.length →
      ∃ toks,
        (∀ fuel, m < fuel →
          Lexer_a.tokens_before_End (s ++ '\x00' :: rest) fuel { m_begin := pos } = some toks) ∧
        spans_in_order s.length pos toks = true ∧
        (∀ t ∈ toks, ∃ beg, t.lexeme.data = some beg ∧
          t.lexeme.chars (s ++ '\x00' :: rest) = (s.drop beg).take t.lexeme.size) ∧
        (gaps s pos toks).length = toks.length + 1 ∧
        (∀ g ∈ gaps s pos toks, ∀ c ∈ g, is_space c = true) ∧
        weave (gaps s pos toks) (toks.map fun t => t.lexeme.chars (s ++ '\x00' :: rest)) =
          s.drop pos := by
  intro m
  induction m using Nat.strong_induction_on with
  | _ m ih =>
    intro pos hm hpos
    obtain ⟨t, pos2, hn, hcase⟩ := next_spec s rest h0 pos hpos
    rcases hcase with ⟨ht, _, hws⟩ | ⟨st, len, hst, hlen0, hle, hp2, hk, hl, hgap, _⟩
    · refine ⟨[], ?_, ?_, ?_, ?_, ?_, ?_⟩
      · intro fuel hf
        cases fuel with
        | zero => omega
        | succ fuel => simp [Lexer_a.tokens_before_End, hn, ht, Token.kind, Token.ofKind]
      · simpa [spans_in_order] using hpos
      · simp
      · simp [gaps]
      · simpa [gaps] using hws
      · simp [gaps, weave]
    · obtain ⟨toks, hrun, hord, hsl, hgl, hgw, hwv⟩ :=
        ih (s.length - pos2) (by omega) pos2 rfl (by omega)
      have hdata : t.lexeme.data = some st := by simp [Token.lexeme, hl]
      have hsize : t.lexeme.size = len := by simp [Token.lexeme, hl]
      have hchars := chars_of_span s ('\x00' :: rest) t st len hl hle
      refine ⟨t :: toks, ?_, ?_, ?_, ?_, ?_, ?_⟩
      · intro fuel hf
        cases fuel with
        | zero => omega
        | succ fuel =>
          have := hrun fuel (by omega)
          simp [Lexer_a.tokens_before_End, hn, Token.kind, hk, this]
      · simp only [spans_in_order, hdata, hsize, Bool.and_eq_true, decide_eq_true_eq]
        exact ⟨hst, by rw [← hp2]; exact hord⟩
      · intro t2 ht2
        simp only [List.mem_cons] at ht2
        rcases ht2 with rfl | ht2
        · exact ⟨st, hdata, by rw [hchars, hsize]⟩
        · exact hsl t2 ht2
      · simp only [gaps, hdata, hsize, List.length_cons, ← hp2, hgl]
      · intro g hg
        simp only [gaps, hdata, hsize, List.mem_cons, ← hp2] at hg
        rcases hg with rfl | hg
        · exact hgap
        · exact hgw g hg
      · simp only [gaps, hdata, hsize, List.map_cons, weave, ← hp2, hwv, hchars]
        rw [hp2]
        exact gap_slice_rest s pos st len hst

/-- C6. Round trip.  On the input `s` followed by the terminator, the calls of
`next()` up to the first `End` return: the token list `toks` is the same for
every bound above the length of `s`.  Each lexeme is a slice of `s`, the slices
are disjoint and in increasing order inside `s`, there is one gap before each
token and one after the last, every gap character is whitespace, and the gaps
and lexemes put together in order are `s`. -/
theorem round_trip (s rest : List Char) (h0 : '\x00' ∉ s) :
    ∃ toks,
      (∀ fuel, s.length < fuel →
        Lexer_a.tokens_before_End (s ++ '\x00' :: rest) fuel { m_begin := 0 } = some toks) ∧
      spans_in_order s.length 0 toks = true ∧
      (∀ t ∈ toks, ∃ beg, t.lexeme.data = some beg ∧
        t.lexeme.chars (s ++ '\x00' :: rest) = (s.drop beg).take t.lexeme.size) ∧
      (gaps s 0 toks).length = toks.length + 1 ∧
      (∀ g ∈ gaps s 0 toks, ∀ c ∈ g, is_space c = true) ∧
      weave (gaps s 0 toks) (toks.map fun t => t.lexeme.chars (s ++ '\x00' :: rest)) = s := by
  obtain ⟨toks, h1, h2, h3, h4, h5, h6⟩ :=
    tokens_before_End_spec s rest h0 s.length 0 rfl (Nat.zero_le _)
  exact ⟨toks, h1, h2, h3, h4, h5, by simpa using h6⟩

theorem round_trip_witness :
    ∃ toks,
      (∀ fuel, " x1 = 20\t+@ ".toList.length < fuel →
        Lexer_a.tokens_before_End (" x1 = 20\t+@ ".toList ++ '\x00' :: []) fuel
          { m_begin := 0 } = some toks) ∧
      spans_in_order " x1 = 20\t+@ ".toList.length 0 toks = true ∧
      (∀ t ∈ toks, ∃ beg, t.lexeme.data = some beg ∧
        t.lexeme.chars (" x1 = 20\t+@ ".toList ++ '\x00' :: []) =
          (" x1 = 20\t+@ ".toList.drop beg).take t.lexeme.size) ∧
      (gaps " x1 = 20\t+@ ".toList 0 toks).length = toks.length + 1 ∧
      (∀ g ∈ gaps " x1 = 20\t+@ ".toList 0 toks, ∀ c ∈ g, is_space c = true) ∧
      weave (gaps " x1 = 20\t+@ ".toList 0 toks)
        (toks.map fun t => t.lexeme.chars (" x1 = 20\t+@ ".toList ++ '\x00' :: [])) =
        " x1 = 20\t+@ ".toList :=
  round_trip " x1 = 20\t+@ ".toList [] (by decide)

/-- Any number of calls of `next()` from a cursor inside the input `s` return,
the cursor stays inside `s` or at the terminator, and no lexeme holds a
whitespace character. -/
theorem calls_spec (s rest : List Char) (h0 : '\x00' ∉ s) :
    ∀ k pos, pos ≤ s.length →
      ∃ toks pos2, Lexer_a.calls (s ++ '\x00' :: rest) k { m_begin := pos } =
          some (toks, { m_begin := pos2 }) ∧
        pos2 ≤ s.length ∧ toks.length = k ∧
        ∀ t ∈ toks, ∀ c ∈ t.lexeme.chars (s ++ '\x00' :: rest), is_space c = false := by
  intro k
  induction k with
  | zero =>
    intro pos hpos
    exact ⟨[], pos, rfl, hpos, rfl, by simp⟩
  | succ k ih =>
    intro pos hpos
    obtain ⟨t, pos1, hn, hcase⟩ := next_spec s rest h0 pos hpos
    have hpos1 : pos1 ≤ s.length := by
      rcases hcase with ⟨_, h, _⟩ | ⟨st, len, _, _, hle, hp, _⟩
      · omega
      · omega
    have ht : ∀ c ∈ t.lexeme.chars (s ++ '\x00' :: rest), is_space c = false := by
      rcases hcase with ⟨h, _, _⟩ | ⟨st, len, _, _, hle, _, _, hl, _, hns⟩
      · rw [h]
        simp [Token.lexeme, Token.ofKind, StringView.chars]
      · rw [chars_of_span s ('\x00' :: rest) t st len hl hle]
        exact hns
    obtain ⟨toks, pos2, hc, hpos2, hlen, hall⟩ := ih pos1 hpos1
    refine ⟨t :: toks, pos2, by simp [Lexer_a.calls, hn, hc], hpos2, by simp [hlen], ?_⟩
    intro t2 ht2
    simp only [List.mem_cons] at ht2
    rcases ht2 with rfl | ht2
    · exact ht
    · exact hall t2 ht2

/-- C9. On a null-terminated input, every token returned by any number of
successive calls of `next()` has a lexeme without whitespace characters; and on
an input of whitespace characters only, the first call returns `End`. -/
theorem lexeme_no_whitespace (s rest : List Char) (h0 : '\x00' ∉ s) :
    (∀ k, ∃ toks lx, Lexer_a.calls (s ++ '\x00' :: rest) k { m_begin := 0 } = some (toks, lx) ∧
        toks.length = k ∧
        ∀ t ∈ toks, ∀ c ∈ t.lexeme.chars (s ++ '\x00' :: rest), is_space c = false) ∧
    ((∀ c ∈ s, is_space c = true) →
      ∃ t lx, Lexer_a.next (s ++ '\x00' :: rest) { m_begin := 0 } = some (t, lx) ∧
        t.kind = Kind.End) := by
  constructor
  · intro k
    obtain ⟨toks, pos2, hc, _, hlen, hall⟩ := calls_spec s rest h0 k 0 (Nat.zero_le _)
    exact ⟨toks, _, hc, hlen, hall⟩
  · intro hw
    have := next_whitespace_End [] s rest hw
    simp only [List.nil_append, List.length_nil] at this
    exact ⟨_, _, this, rfl⟩

theorem lexeme_no_whitespace_witness :
    (∀ k, ∃ toks lx, Lexer_a.calls (" \t\n".toList ++ '\x00' :: []) k { m_begin := 0 } =
          some (toks, lx) ∧
        toks.length = k ∧
        ∀ t ∈ toks, ∀ c ∈ t.lexeme.chars (" \t\n".toList ++ '\x00' :: []),
          is_space c = false) ∧
    ∃ t lx, Lexer_a.next (" \t\n".toList ++ '\x00' :: []) { m_begin := 0 } = some (t, lx) ∧
        t.kind = Kind.End :=
  ⟨(lexeme_no_whitespace " \t\n".toList [] (by decide)).1,
   (lexeme_no_whitespace " \t\n".toList [] (by decide)).2 (by decide)⟩

/-! ## The constructors of `Token` -/

/-- C13. The two span constructors agree: for every kind, start and length,
`Token(k, beg, len)` and `Token(k, beg, beg + len)` are the same token, with the
same kind, the same lexeme (start and length) and the same characters in any
memory; and `Token(k)` has kind `k` and an empty lexeme. -/
theorem constructors_agree (k : Kind) (beg len : Nat) (buf : List Char) :
    Token.ofLen k beg len = Token.ofRange k beg (beg + len) ∧
      (Token.ofLen k beg len).kind = (Token.ofRange k beg (beg + len)).kind ∧
      (Token.ofLen k beg len).kind = k ∧
      (Token.ofLen k beg len).lexeme = (Token.ofRange k beg (beg + len)).lexeme ∧
      (Token.ofRange k beg (beg + len)).lexeme = { data := some beg, size := len } ∧
      (Token.ofLen k beg len).lexeme.chars buf =
        (Token.ofRange k beg (beg + len)).lexeme.chars buf ∧
      (Token.ofKind k).kind = k ∧
      (Token.ofKind k).lexeme.size = 0 ∧
      (Token.ofKind k).lexeme.chars buf = [] := by
  have h : Token.ofLen k beg len = Token.ofRange k beg (beg + len) := by
    simp [Token.ofLen, Token.ofRange]
  refine ⟨h, by rw [h], rfl, by rw [h], ?_, by rw [h], rfl, rfl, rfl⟩
  simp [Token.ofRange, Token.lexeme]

/-! ## `comment_or_slash()` -/

/-- The loop of `comment_or_slash()` over a body without newline and terminator
that a newline follows: it returns from inside, one past the newline. -/
theorem comment_loop_newline (body mem : List Char) (lx : Lexer_a)
    (hb : ∀ x ∈ body, x ≠ '\n' ∧ x ≠ '\x00') :
    Lexer_a.comment_loop (body ++ '\n' :: mem) lx =
      some (true, { m_begin := lx.m_begin + body.length + 1 }) := by
  induction body generalizing lx with
  | nil => simp [Lexer_a.comment_loop]
  | cons x body ih =>
    have hx := hb x (by simp)
    have hb2 : ∀ y ∈ body, y ≠ '\n' ∧ y ≠ '\x00' := fun y hy => hb y (by simp [hy])
    have hstep : Lexer_a.comment_loop ((x :: body) ++ '\n' :: mem) lx =
        Lexer_a.comment_loop (body ++ '\n' :: mem) { m_begin := lx.m_begin + 1 } := by
      simp [Lexer_a.comment_loop, hx.1, hx.2]
    rw [hstep, ih _ hb2]
    simp only [List.length_cons]
    congr 3
    omega

/-- The loop of `comment_or_slash()` over a body without newline and terminator
that the terminator follows: it ends with the cursor at the terminator. -/
theorem comment_loop_terminator (body mem : List Char) (lx : Lexer_a)
    (hb : ∀ x ∈ body, x ≠ '\n' ∧ x ≠ '\x00') :
    Lexer_a.comment_loop (body ++ '\x00' :: mem) lx =
      some (false, { m_begin := lx.m_begin + body.length }) := by
  induction body generalizing lx with
  | nil => simp [Lexer_a.comment_loop]
  | cons x body ih =>
    have hx := hb x (by simp)
    have hb2 : ∀ y ∈ body, y ≠ '\n' ∧ y ≠ '\x00' := fun y hy => hb y (by simp [hy])
    have hstep : Lexer_a.comment_loop ((x :: body) ++ '\x00' :: mem) lx =
        Lexer_a.comment_loop (body ++ '\x00' :: mem) { m_begin := lx.m_begin + 1 } := by
      simp [Lexer_a.comment_loop, hx.1, hx.2]
    rw [hstep, ih _ hb2]
    simp only [List.length_cons]
    congr 3
    omega

/-- The reads of `comment_or_slash()` at the two slashes. -/
theorem slash_slash_reads (pre mem : List Char) :
    Lexer_a.get (pre ++ '/' :: '/' :: mem) { m_begin := pre.length } =
        some ('/', { m_begin := pre.length + 1 }) ∧
      Lexer_a.peek (pre ++ '/' :: '/' :: mem) { m_begin := pre.length + 1 } = some '/' ∧
      Lexer_a.get (pre ++ '/' :: '/' :: mem) { m_begin := pre.length + 1 } =
        some ('/', { m_begin := pre.length + 1 + 1 }) ∧
      (pre ++ '/' :: '/' :: mem).drop (pre.length + 1 + 1) = mem := by
  have h1 := get_at pre '/' ('/' :: mem)
  have h2 := peek_at (pre ++ ['/']) '/' mem
  have h3 := get_at (pre ++ ['/']) '/' mem
  have h4 : (pre ++ ['/'] ++ ['/'] ++ mem).drop (pre ++ ['/'] ++ ['/']).length = mem :=
    List.drop_left _ _
  simp only [List.length_append, List.length_singleton, List.append_assoc,
    List.singleton_append] at h2 h3 h4
  exact ⟨h1, h2, h3, h4⟩

/-- C19. With the cursor at a `/` followed by a second `/`, a body without
newline and terminator, and a newline, `comment_or_slash()` returns a `Comment`
token whose lexeme is the body (it starts after the second `/` and leaves the
newline out) and leaves the cursor one past the newline. -/
theorem comment_or_slash_comment (pre body mem : List Char)
    (hb : ∀ x ∈ body, x ≠ '\n' ∧ x ≠ '\x00') :
    Lexer_a.comment_or_slash (pre ++ '/' :: '/' :: (body ++ '\n' :: mem))
        { m_begin := pre.length } =
        some (Token.ofLen Kind.Comment (pre.length + 2) body.length,
          { m_begin := pre.length + 2 + body.length + 1 }) ∧
      (Token.ofLen Kind.Comment (pre.length + 2) body.length).kind = Kind.Comment ∧
      (Token.ofLen Kind.Comment (pre.length + 2) body.length).lexeme.chars
        (pre ++ '/' :: '/' :: (body ++ '\n' :: mem)) = body ∧
      (pre ++ '/' :: '/' :: (body ++ '\n' :: mem))[pre.length + 2 + body.length]? =
        some '\n' := by
  obtain ⟨h1, h2, h3, h4⟩ := slash_slash_reads pre (body ++ '\n' :: mem)
  have hl := comment_loop_newline body mem { m_begin := pre.length + 1 + 1 } hb
  have hd : (pre ++ '/' :: '/' :: (body ++ '\n' :: mem)).drop (pre.length + 2) =
      body ++ '\n' :: mem := h4
  refine ⟨?_, rfl, ?_, ?_⟩
  · simp only [Lexer_a.comment_or_slash, h1, h2, h3, h4, hl, if_true]
    have : pre.length + 1 + 1 + body.length + 1 - (pre.length + 1 + 1) - 1 = body.length := by
      omega
    rw [this]
  · simp [Token.lexeme, Token.ofLen, StringView.chars, hd]
  · have := congrArg List.head? (List.drop_drop body.length (pre.length + 2)
      (pre ++ '/' :: '/' :: (body ++ '\n' :: mem)))
    rw [hd, List.drop_left, List.head?_drop] at this
    simpa [Nat.add_comm] using this.symm

theorem comment_or_slash_comment_witness :
    Lexer_a.comment_or_slash ("x = 2\n".toList ++ '/' :: '/' :: (" c".toList ++ '\n' :: ['\x00']))
        { m_begin := "x = 2\n".toList.length } =
        some (Token.ofLen Kind.Comment ("x = 2\n".toList.length + 2) " c".toList.length,
          { m_begin := "x = 2\n".toList.length + 2 + " c".toList.length + 1 }) ∧
      (Token.ofLen Kind.Comment ("x = 2\n".toList.length + 2) " c".toList.length).kind =
        Kind.Comment ∧
      (Token.ofLen Kind.Comment ("x = 2\n".toList.length + 2) " c".toList.length).lexeme.chars
        ("x = 2\n".toList ++ '/' :: '/' :: (" c".toList ++ '\n' :: ['\x00'])) = " c".toList ∧
      ("x = 2\n".toList ++ '/' :: '/' :: (" c".toList ++ '\n' :: ['\x00']))[
        "x = 2\n".toList.length + 2 + " c".toList.length]? = some '\n' :=
  comment_or_slash_comment "x = 2\n".toList " c".toList ['\x00'] (by decide)

/-- C20. With the cursor at `//` followed by a body without newline and then
the terminator, `comment_or_slash()` returns an `Error` token whose lexeme is
the span of length 1 at the terminator, and leaves the cursor at the
terminator.  With the cursor at a `/` followed by a character `c` other than
`/`, it returns `Slash` with the lexeme `/` of length 1 and leaves the cursor
at `c`, one past the `/`. -/
theorem comment_or_slash_other (pre body mem : List Char) (c : Char)
    (hb : ∀ x ∈ body, x ≠ '\n' ∧ x ≠ '\x00') (hc : c ≠ '/') :
    (Lexer_a.comment_or_slash (pre ++ '/' :: '/' :: (body ++ '\x00' :: mem))
        { m_begin := pre.length } =
        some (Token.ofLen Kind.Error (pre.length + 2 + body.length) 1,
          { m_begin := pre.length + 2 + body.length }) ∧
      (pre ++ '/' :: '/' :: (body ++ '\x00' :: mem))[pre.length + 2 + body.length]? =
        some '\x00' ∧
      (Token.ofLen Kind.Error (pre.length + 2 + body.length) 1).kind = Kind.Error ∧
      (Token.ofLen Kind.Error (pre.length + 2 + body.length) 1).lexeme.size = 1 ∧
      (Token.ofLen Kind.Error (pre.length + 2 + body.length) 1).lexeme.chars
        (pre ++ '/' :: '/' :: (body ++ '\x00' :: mem)) = ['\x00']) ∧
    (Lexer_a.comment_or_slash (pre ++ '/' :: c :: mem) { m_begin := pre.length } =
        some (Token.ofLen Kind.Slash pre.length 1, { m_begin := pre.length + 1 }) ∧
      (Token.ofLen Kind.Slash pre.length 1).kind = Kind.Slash ∧
      (Token.ofLen Kind.Slash pre.length 1).lexeme.size = 1 ∧
      (Token.ofLen Kind.Slash pre.length 1).lexeme.chars (pre ++ '/' :: c :: mem) = ['/'] ∧
      (pre ++ '/' :: c :: mem)[pre.length + 1]? = some c) := by
  constructor
  · obtain ⟨h1, h2, h3, h4⟩ := slash_slash_reads pre (body ++ '\x00' :: mem)
    have hl := comment_loop_terminator body mem { m_begin := pre.length + 1 + 1 } hb
    have hd : (pre ++ '/' :: '/' :: (body ++ '\x00' :: mem)).drop (pre.length + 2) =
        body ++ '\x00' :: mem := h4
    have hd2 : (pre ++ '/' :: '/' :: (body ++ '\x00' :: mem)).drop
        (pre.length + 2 + body.length) = '\x00' :: mem := by
      have := List.drop_drop body.length (pre.length + 2)
        (pre ++ '/' :: '/' :: (body ++ '\x00' :: mem))
      rw [hd, List.drop_left] at this
      exact this.symm
    refine ⟨?_, ?_, rfl, rfl, ?_⟩
    · simp only [Lexer_a.comment_or_slash, h1, h2, h3, h4, hl, if_true]
    · have := congrArg List.head? hd2
      rw [List.head?_drop] at this
      simpa using this
    · simp [Token.lexeme, Token.ofLen, StringView.chars, hd2]
  · have h1 := get_at pre '/' (c :: mem)
    have h2 := peek_at (pre ++ ['/']) c mem
    have hd : (pre ++ '/' :: c :: mem).drop pre.length = '/' :: c :: mem := List.drop_left _ _
    simp only [List.length_append, List.length_singleton, List.append_assoc,
      List.singleton_append] at h2
    refine ⟨?_, rfl, rfl, ?_, ?_⟩
    · simp only [Lexer_a.comment_or_slash, h1, h2, hc, if_false]
    · simp [Token.lexeme, Token.ofLen, StringView.chars, hd]
    · simpa [Lexer_a.peek] using h2

theorem comment_or_slash_other_witness :
    (Lexer_a.comment_or_slash ("a ".toList ++ '/' :: '/' :: (" c".toList ++ '\x00' :: []))
        { m_begin := "a ".toList.length } =
        some (Token.ofLen Kind.Error ("a ".toList.length + 2 + " c".toList.length) 1,
          { m_begin := "a ".toList.length + 2 + " c".toList.length }) ∧
      ("a ".toList ++ '/' :: '/' :: (" c".toList ++ '\x00' :: []))[
        "a ".toList.length + 2 + " c".toList.length]? = some '\x00' ∧
      (Token.ofLen Kind.Error ("a ".toList.length + 2 + " c".toList.length) 1).kind =
        Kind.Error ∧
      (Token.ofLen Kind.Error ("a ".toList.length + 2 + " c".toList.length) 1).lexeme.size = 1 ∧
      (Token.ofLen Kind.Error ("a ".toList.length + 2 + " c".toList.length) 1).lexeme.chars
        ("a ".toList ++ '/' :: '/' :: (" c".toList ++ '\x00' :: [])) = ['\x00']) ∧
    (Lexer_a.comment_or_slash ("a ".toList ++ '/' :: '2' :: ['\x00'])
        { m_begin := "a ".toList.length } =
        some (Token.ofLen Kind.Slash "a ".toList.length 1,
          { m_begin := "a ".toList.length + 1 }) ∧
      (Token.ofLen Kind.Slash "a ".toList.length 1).kind = Kind.Slash ∧
      (Token.ofLen Kind.Slash "a ".toList.length 1).lexeme.size = 1 ∧
      (Token.ofLen Kind.Slash "a ".toList.length 1).lexeme.chars
        ("a ".toList ++ '/' :: '2' :: ['\x00']) = ['/'] ∧
      ("a ".toList ++ '/' :: '2' :: ['\x00'])[ "a ".toList.length + 1]? = some '2') :=
  comment_or_slash_other "a ".toList " c".toList ['\x00'] '2' (by decide) (by decide)

/-! ## Progress of the cursor -/

/-- C15. On a null-terminated input, from a cursor at or before the terminator,
`next()` returns and the cursor after the call is at or after the cursor before
it (and still at or before the terminator). -/
theorem cursor_monotone (s rest : List Char) (h0 : '\x00' ∉ s) (pos : Nat)
    (hpos : pos ≤ s.length) :
    ∃ t lx, Lexer_a.next (s ++ '\x00' :: rest) { m_begin := pos } = some (t, lx) ∧
      pos ≤ lx.m_begin ∧ lx.m_begin ≤ s.length := by
  obtain ⟨t, pos2, hn, hcase⟩ := next_spec s rest h0 pos hpos
  refine ⟨t, _, hn, ?_⟩
  rcases hcase with ⟨_, h, _⟩ | ⟨st, len, h1, _, h2, h3, _⟩
  · simp only
    omega
  · simp only
    omega

theorem cursor_monotone_witness :
    ∃ t lx, Lexer_a.next ("ab  12".toList ++ '\x00' :: []) { m_begin := 2 } = some (t, lx) ∧
      2 ≤ lx.m_begin ∧ lx.m_begin ≤ "ab  12".toList.length :=
  cursor_monotone "ab  12".toList [] (by decide) 2 (by decide)

/-- The consumption loop from a cursor `pos` inside the input `s` returns at
most as many tokens as there are characters left, none of kind `End`. -/
theorem tokens_before_End_length (s rest : List Char) (h0 : '\x00' ∉ s) :
    ∀ m pos, s.length - pos = m → pos ≤ s.length →
      ∃ toks,
        (∀ fuel, m < fuel →
          Lexer_a.tokens_before_End (s ++ '\x00' :: rest) fuel { m_begin := pos } = some toks) ∧
        toks.length ≤ m ∧ ∀ t ∈ toks, t.kind ≠ Kind.End := by
  intro m
  induction m using Nat.strong_induction_on with
  | _ m ih =>
    intro pos hm hpos
    obtain ⟨t, pos2, hn, hcase⟩ := next_spec s rest h0 pos hpos
    rcases hcase with ⟨ht, _, _⟩ | ⟨st, len, hst, hlen0, hle, hp2, hk, _⟩
    · refine ⟨[], ?_, by simp, by simp⟩
      intro fuel hf
      cases fuel with
      | zero => omega
      | succ fuel => simp [Lexer_a.tokens_before_End, hn, ht, Token.kind, Token.ofKind]
    · obtain ⟨toks, hrun, hlen, hne⟩ := ih (s.length - pos2) (by omega) pos2 rfl (by omega)
      refine ⟨t :: toks, ?_, ?_, ?_⟩
      · intro fuel hf
        cases fuel with
        | zero => omega
        | succ fuel =>
          have := hrun fuel (by omega)
          simp [Lexer_a.tokens_before_End, hn, Token.kind, hk, this]
      · simp only [List.length_cons]
        omega
      · intro t2 ht2
        simp only [List.mem_cons] at ht2
        rcases ht2 with rfl | ht2
        · exact hk
        · exact hne t2 ht2

/-- C16. On an input of `n` characters before the terminator, a call of `next()`
that returns a token of a kind other than `End` moves the cursor forward; and
the loop that calls `next()` until `End`, without stopping at `Error`, ends
within `n + 1` calls, after at most `n` tokens. -/
theorem consumption_terminates (s rest : List Char) (h0 : '\x00' ∉ s) :
    (∀ pos, pos ≤ s.length →
      ∃ t lx, Lexer_a.next (s ++ '\x00' :: rest) { m_begin := pos } = some (t, lx) ∧
        (t.kind ≠ Kind.End → pos < lx.m_begin)) ∧
    ∃ toks,
      Lexer_a.tokens_before_End (s ++ '\x00' :: rest) (s.length + 1) { m_begin := 0 } =
        some toks ∧
      toks.length ≤ s.length ∧ ∀ t ∈ toks, t.kind ≠ Kind.End := by
  constructor
  · intro pos hpos
    obtain ⟨t, pos2, hn, hcase⟩ := next_spec s rest h0 pos hpos
    refine ⟨t, _, hn, ?_⟩
    rcases hcase with ⟨ht, _, _⟩ | ⟨st, len, h1, h2, _, h3, _⟩
    · intro h
      exact absurd (by rw [ht]; rfl) h
    · intro _
      simp only
      omega
  · obtain ⟨toks, hrun, hlen, hne⟩ :=
      tokens_before_End_length s rest h0 s.length 0 rfl (Nat.zero_le _)
    exact ⟨toks, hrun _ (Nat.lt_succ_self _), hlen, hne⟩

theorem consumption_terminates_witness :
    (∀ pos, pos ≤ "a@ b".toList.length →
      ∃ t lx, Lexer_a.next ("a@ b".toList ++ '\x00' :: []) { m_begin := pos } = some (t, lx) ∧
        (t.kind ≠ Kind.End → pos < lx.m_begin)) ∧
    ∃ toks,
      Lexer_a.tokens_before_End ("a@ b".toList ++ '\x00' :: []) ("a@ b".toList.length + 1)
        { m_begin := 0 } = some toks ∧
      toks.length ≤ "a@ b".toList.length ∧ ∀ t ∈ toks, t.kind ≠ Kind.End :=
  consumption_terminates "a@ b".toList [] (by decide)

/-! ## The kinds `next()` returns -/

theorem punctuation_kinds :
    ∀ p ∈ punctuation, p.2 ≠ Kind.Comment ∧ p.2 ≠ Kind.Number ∧ p.2 ≠ Kind.Identifier := by
  decide

theorem number_kind {buf : List Char} {lx lx2 : Lexer_a} {t : Token}
    (h : lx.number buf = some (t, lx2)) : t.kind = Kind.Number := by
  unfold Lexer_a.number at h
  cases hg : lx.get buf with
  | none => simp [hg] at h
  | some r =>
    cases hw : Lexer_a.get_while is_digit (buf.drop r.2.m_begin) r.2 with
    | none => simp [hg, hw] at h
    | some lx3 =>
      simp only [hg, hw, Option.some.injEq, Prod.mk.injEq] at h
      rw [← h.1]
      rfl

theorem Identifier_kind {buf : List Char} {lx lx2 : Lexer_a} {t : Token}
    (h : lx.Identifier buf = some (t, lx2)) : t.kind = Kind.Identifier := by
  unfold Lexer_a.Identifier at h
  cases hg : lx.get buf with
  | none => simp [hg] at h
  | some r =>
    cases hw : Lexer_a.get_while is_identifier_char (buf.drop r.2.m_begin) r.2 with
    | none => simp [hg, hw] at h
    | some lx3 =>
      simp only [hg, hw, Option.some.injEq, Prod.mk.injEq] at h
      rw [← h.1]
      rfl

/-- The `switch` returns a token of one of the kinds `End`, the 21 punctuation
kinds, `Number`, `Identifier` and `Error`: never `Comment`. -/
theorem dispatch_not_Comment {buf : List Char} {lx lx2 : Lexer_a} {c : Char} {t : Token}
    (h : lx.dispatch buf c = some (t, lx2)) : t.kind ≠ Kind.Comment := by
  by_cases h0 : c = '\x00'
  · subst h0
    rw [dispatch_zero] at h
    simp only [Option.some.injEq, Prod.mk.injEq] at h
    rw [← h.1]
    decide
  · by_cases hp : ∃ p ∈ punctuation, c = p.1
    · obtain ⟨p, hp, rfl⟩ := hp
      rw [dispatch_punctuation _ _ p hp] at h
      simp only [Lexer_a.atom, Option.some.injEq, Prod.mk.injEq] at h
      rw [← h.1]
      exact (punctuation_kinds p hp).1
    · have hp2 : ∀ p ∈ punctuation, c ≠ p.1 := fun p hp1 hcp => hp ⟨p, hp1, hcp⟩
      rw [dispatch_default _ _ c h0 hp2] at h
      by_cases hd : is_digit c = true
      · rw [if_pos hd] at h
        rw [number_kind h]
        decide
      · rw [if_neg hd] at h
        by_cases hi : is_identifier_char c = true
        · rw [if_pos hi] at h
          rw [Identifier_kind h]
          decide
        · rw [if_neg hi] at h
          simp only [Option.some.injEq, Prod.mk.injEq] at h
          rw [← h.1]
          simp [Token.kind, Token.ofLen]

theorem next_not_Comment {buf : List Char} {lx lx2 : Lexer_a} {t : Token}
    (h : lx.next buf = some (t, lx2)) : t.kind ≠ Kind.Comment := by
  unfold Lexer_a.next at h
  cases hw : Lexer_a.get_while is_space (buf.drop lx.m_begin) lx with
  | none => simp [hw] at h
  | some lx1 =>
    cases hp : lx1.peek buf with
    | none => simp [hw, hp] at h
    | some c =>
      simp only [hw, hp] at h
      exact dispatch_not_Comment h

theorem calls_not_Comment (buf : List Char) :
    ∀ k (lx lx2 : Lexer_a) (toks : List Token), Lexer_a.calls buf k lx = some (toks, lx2) →
      ∀ t ∈ toks, t.kind ≠ Kind.Comment := by
  intro k
  induction k with
  | zero =>
    intro lx lx2 toks h
    simp only [Lexer_a.calls, Option.some.injEq, Prod.mk.injEq] at h
    rw [← h.1]
    simp
  | succ k ih =>
    intro lx lx2 toks h
    unfold Lexer_a.calls at h
    cases hn : lx.next buf with
    | none => simp [hn] at h
    | some r =>
      cases hc : Lexer_a.calls buf k r.2 with
      | none => simp [hn, hc] at h
      | some r2 =>
        simp only [hn, hc, Option.some.injEq, Prod.mk.injEq] at h
        rw [← h.1]
        intro t ht
        simp only [List.mem_cons] at ht
        rcases ht with rfl | ht
        · exact @next_not_Comment buf lx r.2 r.1 hn
        · exact ih r.2 r2.2 r2.1 hc t ht

/-- The scanner before whitespace and then a punctuation character. -/
theorem next_punct_at (pre w : List Char) (p : Char × Kind) (mem : List Char)
    (hw : ∀ x ∈ w, is_space x = true) (hp : p ∈ punctuation) :
    Lexer_a.next (pre ++ w ++ p.1 :: mem) { m_begin := pre.length } =
      some (Token.ofLen p.2 (pre.length + w.length) 1,
        { m_begin := pre.length + w.length + 1 }) := by
  rw [next_skip pre w p.1 mem hw (punctuation_facts p hp).1, dispatch_punctuation _ _ p hp]
  rfl

/-- The characters of a token of length 1 at the character `c`. -/
theorem ofLen_one_chars (kind : Kind) (pre w : List Char) (c : Char) (mem : List Char) :
    (Token.ofLen kind (pre.length + w.length) 1).lexeme.chars (pre ++ w ++ c :: mem) = [c] := by
  have : ((pre ++ w) ++ c :: mem).drop (pre ++ w).length = c :: mem := List.drop_left _ _
  rw [List.length_append] at this
  simp [Token.lexeme, Token.ofLen, StringView.chars, this]

/-- C11. In `next()` a `/` is always the atom `Slash`: when the first character
at or after the cursor that is not whitespace is `/`, the call returns `Slash`
with the lexeme `/` of length 1 and leaves the cursor one past that `/`,
whatever follows it; and no call of `next()`, alone or in a sequence of calls,
on any memory returns a token of kind `Comment`. -/
theorem slash_is_atom (pre w mem : List Char) (hw : ∀ x ∈ w, is_space x = true) :
    Lexer_a.next (pre ++ w ++ '/' :: mem) { m_begin := pre.length } =
        some (Token.ofLen Kind.Slash (pre.length + w.length) 1,
          { m_begin := pre.length + w.length + 1 }) ∧
      (Token.ofLen Kind.Slash (pre.length + w.length) 1).kind = Kind.Slash ∧
      (Token.ofLen Kind.Slash (pre.length + w.length) 1).lexeme.size = 1 ∧
      (Token.ofLen Kind.Slash (pre.length + w.length) 1).lexeme.chars
        (pre ++ w ++ '/' :: mem) = ['/'] ∧
      (∀ (buf : List Char) (lx lx2 : Lexer_a) (t : Token),
        lx.next buf = some (t, lx2) → t.kind ≠ Kind.Comment) ∧
      ∀ (buf : List Char) (k : Nat) (lx lx2 : Lexer_a) (toks : List Token),
        Lexer_a.calls buf k lx = some (toks, lx2) → ∀ t ∈ toks, t.kind ≠ Kind.Comment := by
  refine ⟨next_punct_at pre w ('/', Kind.Slash) mem hw (by decide), rfl, rfl,
    ofLen_one_chars _ pre w '/' mem, ?_, ?_⟩
  · intro buf lx lx2 t h
    exact next_not_Comment h
  · intro buf k lx lx2 toks h
    exact calls_not_Comment buf k lx lx2 toks h

theorem slash_is_atom_witness :
    Lexer_a.next ("2".toList ++ " \n".toList ++ '/' :: "/ c\n\x00".toList)
        { m_begin := "2".toList.length } =
        some (Token.ofLen Kind.Slash ("2".toList.length + " \n".toList.length) 1,
          { m_begin := "2".toList.length + " \n".toList.length + 1 }) ∧
      (Token.ofLen Kind.Slash ("2".toList.length + " \n".toList.length) 1).kind = Kind.Slash ∧
      (Token.ofLen Kind.Slash ("2".toList.length + " \n".toList.length) 1).lexeme.size = 1 ∧
      (Token.ofLen Kind.Slash ("2".toList.length + " \n".toList.length) 1).lexeme.chars
        ("2".toList ++ " \n".toList ++ '/' :: "/ c\n\x00".toList) = ['/'] ∧
      (∀ (buf : List Char) (lx lx2 : Lexer_a) (t : Token),
        lx.next buf = some (t, lx2) → t.kind ≠ Kind.Comment) ∧
      ∀ (buf : List Char) (k : Nat) (lx lx2 : Lexer_a) (toks : List Token),
        Lexer_a.calls buf k lx = some (toks, lx2) → ∀ t ∈ toks, t.kind ≠ Kind.Comment :=
  slash_is_atom "2".toList " \n".toList "/ c\n\x00".toList (by decide)

/-! ## Numbers next to punctuation -/

/-- The scanner at the first digit of a non-empty run of digits `d` that a
character other than a digit follows. -/
theorem next_digits_at (pre d : List Char) (c2 : Char) (mem : List Char) (hne : d ≠ [])
    (hd : ∀ x ∈ d, is_digit x = true) (hc2 : is_digit c2 = false) :
    Lexer_a.next (pre ++ d ++ c2 :: mem) { m_begin := pre.length } =
      some (Token.ofRange Kind.Number pre.length (pre.length + d.length),
        { m_begin := pre.length + d.length }) := by
  cases d with
  | nil => exact absurd rfl hne
  | cons d0 dt =>
    have hd0 : is_digit d0 = true := hd d0 (by simp)
    have hdt : ∀ x ∈ dt, is_digit x = true := fun x hx => hd x (by simp [hx])
    have h1 := next_skip pre [] d0 (dt ++ c2 :: mem) (by simp) (is_digit_not_space hd0)
    simp only [List.append_nil, List.length_nil, Nat.add_zero] at h1
    have hb : pre ++ d0 :: dt ++ c2 :: mem = pre ++ d0 :: (dt ++ c2 :: mem) := by simp
    rw [hb, h1, dispatch_digit _ _ _ hd0, number_run pre d0 dt c2 mem hdt hc2]
    simp [Nat.add_assoc, Nat.add_comm 1]

/-- The tokens of `k + 1` calls are the token of the first call and then the
tokens of `k` calls. -/
theorem calls_succ (buf : List Char) (k : Nat) (lx lx1 lx2 : Lexer_a) (t : Token)
    (ts : List Token) (h1 : lx.next buf = some (t, lx1))
    (h2 : Lexer_a.calls buf k lx1 = some (ts, lx2)) :
    Lexer_a.calls buf (k + 1) lx = some (t :: ts, lx2) := by
  simp [Lexer_a.calls, h1, h2]

/-- A sign character, then a non-empty run of digits, then the terminator: the
atom of the sign, a `Number` for the whole run, `End`. -/
theorem calls_sign_number (p : Char × Kind) (hp : p ∈ punctuation) (a rest : List Char)
    (ha : a ≠ []) (had : ∀ x ∈ a, is_digit x = true) :
    (Lexer_a.calls ((p.1 :: a) ++ '\x00' :: rest) 3 { m_begin := 0 }).map
        (fun r => r.1.map (Token.view ((p.1 :: a) ++ '\x00' :: rest))) =
      some [(p.2, String.mk [p.1]), (Kind.Number, String.mk a), (Kind.End, "")] := by
  have hB : (p.1 :: a) ++ '\x00' :: rest = p.1 :: (a ++ '\x00' :: rest) := rfl
  have h1 : Lexer_a.next (p.1 :: (a ++ '\x00' :: rest)) { m_begin := 0 } =
      some (Token.ofLen p.2 0 1, { m_begin := 1 }) := by
    simpa using next_punct_at [] [] p (a ++ '\x00' :: rest) (by simp) hp
  have h2 : Lexer_a.next (p.1 :: (a ++ '\x00' :: rest)) { m_begin := 1 } =
      some (Token.ofRange Kind.Number 1 (1 + a.length), { m_begin := 1 + a.length }) := by
    simpa using next_digits_at [p.1] a '\x00' rest ha had (by decide)
  have h3 : Lexer_a.next (p.1 :: (a ++ '\x00' :: rest)) { m_begin := 1 + a.length } =
      some (Token.ofKind Kind.End, { m_begin := 1 + a.length }) := by
    simpa [Nat.add_comm] using next_at_terminator ([p.1] ++ a) rest
  have c1 : (Token.ofLen p.2 0 1).lexeme.chars (p.1 :: (a ++ '\x00' :: rest)) = [p.1] := by
    simpa using ofLen_one_chars p.2 [] [] p.1 (a ++ '\x00' :: rest)
  have c2 : (Token.ofRange Kind.Number 1 (1 + a.length)).lexeme.chars
      (p.1 :: (a ++ '\x00' :: rest)) = a := by
    simpa using ofRange_chars Kind.Number [p.1] a ('\x00' :: rest)
  have c3 : (Token.ofKind Kind.End).lexeme.chars (p.1 :: (a ++ '\x00' :: rest)) = [] := rfl
  have hc := calls_succ _ 2 _ _ _ _ _ h1 (calls_succ _ 1 _ _ _ _ _ h2
    (calls_succ _ 0 _ _ _ _ _ h3 rfl))
  rw [hB, hc]
  simp only [Option.map_some', List.map_cons, List.map_nil, Token.view, c1, c2, c3]
  rfl

/-- C12. Numbers carry no sign and no decimal point: for non-empty digit strings
`a` and `b`, `-a` gives `Minus`, `Number a`, `End`; `+a` gives `Plus`,
`Number a`, `End`; and `a.b` gives `Number a`, `Dot`, `Number b`, `End`. -/
theorem number_no_sign_no_point (a b rest : List Char) (ha : a ≠ []) (hb : b ≠ [])
    (had : ∀ x ∈ a, is_digit x = true) (hbd : ∀ x ∈ b, is_digit x = true) :
    (Lexer_a.calls (('-' :: a) ++ '\x00' :: rest) 3 { m_begin := 0 }).map
        (fun r => r.1.map (Token.view (('-' :: a) ++ '\x00' :: rest))) =
      some [(Kind.Minus, "-"), (Kind.Number, String.mk a), (Kind.End, "")] ∧
    (Lexer_a.calls (('+' :: a) ++ '\x00' :: rest) 3 { m_begin := 0 }).map
        (fun r => r.1.map (Token.view (('+' :: a) ++ '\x00' :: rest))) =
      some [(Kind.Plus, "+"), (Kind.Number, String.mk a), (Kind.End, "")] ∧
    (Lexer_a.calls (a ++ '.' :: b ++ '\x00' :: rest) 4 { m_begin := 0 }).map
        (fun r => r.1.map (Token.view (a ++ '.' :: b ++ '\x00' :: rest))) =
      some [(Kind.Number, String.mk a), (Kind.Dot, "."), (Kind.Number, String.mk b),
        (Kind.End, "")] := by
  refine ⟨calls_sign_number ('-', Kind.Minus) (by decide) a rest ha had,
    calls_sign_number ('+', Kind.Plus) (by decide) a rest ha had, ?_⟩
  have hB : a ++ '.' :: b ++ '\x00' :: rest = a ++ '.' :: (b ++ '\x00' :: rest) := by simp
  have h1 : Lexer_a.next (a ++ '.' :: (b ++ '\x00' :: rest)) { m_begin := 0 } =
      some (Token.ofRange Kind.Number 0 a.length, { m_begin := a.length }) := by
    simpa using next_digits_at [] a '.' (b ++ '\x00' :: rest) ha had (by decide)
  have h2 : Lexer_a.next (a ++ '.' :: (b ++ '\x00' :: rest)) { m_begin := a.length } =
      some (Token.ofLen Kind.Dot a.length 1, { m_begin := a.length + 1 }) := by
    simpa using next_punct_at a [] ('.', Kind.Dot) (b ++ '\x00' :: rest) (by simp) (by decide)
  have h3 : Lexer_a.next (a ++ '.' :: (b ++ '\x00' :: rest)) { m_begin := a.length + 1 } =
      some (Token.ofRange Kind.Number (a.length + 1) (a.length + 1 + b.length),
        { m_begin := a.length + 1 + b.length }) := by
    simpa using next_digits_at (a ++ ['.']) b '\x00' rest hb hbd (by decide)
  have h4 : Lexer_a.next (a ++ '.' :: (b ++ '\x00' :: rest))
      { m_begin := a.length + 1 + b.length } =
      some (Token.ofKind Kind.End, { m_begin := a.length + 1 + b.length }) := by
    have h := next_at_terminator (a ++ ['.'] ++ b) rest
    have hl : (a ++ ['.'] ++ b).length = a.length + 1 + b.length := by
      simp only [List.length_append, List.length_singleton]
    rw [hl] at h
    simpa using h
  have c1 : (Token.ofRange Kind.Number 0 a.length).lexeme.chars
      (a ++ '.' :: (b ++ '\x00' :: rest)) = a := by
    simpa using ofRange_chars Kind.Number [] a ('.' :: (b ++ '\x00' :: rest))
  have c2 : (Token.ofLen Kind.Dot a.length 1).lexeme.chars
      (a ++ '.' :: (b ++ '\x00' :: rest)) = ['.'] := by
    simpa using ofLen_one_chars Kind.Dot a [] '.' (b ++ '\x00' :: rest)
  have c3 : (Token.ofRange Kind.Number (a.length + 1) (a.length + 1 + b.length)).lexeme.chars
      (a ++ '.' :: (b ++ '\x00' :: rest)) = b := by
    simpa using ofRange_chars Kind.Number (a ++ ['.']) b ('\x00' :: rest)
  have c4 : (Token.ofKind Kind.End).lexeme.chars (a ++ '.' :: (b ++ '\x00' :: rest)) = [] :=
    rfl
  have hc := calls_succ _ 3 _ _ _ _ _ h1 (calls_succ _ 2 _ _ _ _ _ h2
    (calls_succ _ 1 _ _ _ _ _ h3 (calls_succ _ 0 _ _ _ _ _ h4 rfl)))
  rw [hB, hc]
  simp only [Option.map_some', List.map_cons, List.map_nil, Token.view, c1, c2, c3, c4]
  rfl

theorem number_no_sign_no_point_witness :
    (Lexer_a.calls (('-' :: "12".toList) ++ '\x00' :: []) 3 { m_begin := 0 }).map
        (fun r => r.1.map (Token.view (('-' :: "12".toList) ++ '\x00' :: []))) =
      some [(Kind.Minus, "-"), (Kind.Number, String.mk "12".toList), (Kind.End, "")] ∧
    (Lexer_a.calls (('+' :: "12".toList) ++ '\x00' :: []) 3 { m_begin := 0 }).map
        (fun r => r.1.map (Token.view (('+' :: "12".toList) ++ '\x00' :: []))) =
      some [(Kind.Plus, "+"), (Kind.Number, String.mk "12".toList), (Kind.End, "")] ∧
    (Lexer_a.calls ("12".toList ++ '.' :: "50".toList ++ '\x00' :: []) 4 { m_begin := 0 }).map
        (fun r => r.1.map (Token.view ("12".toList ++ '.' :: "50".toList ++ '\x00' :: []))) =
      some [(Kind.Number, String.mk "12".toList), (Kind.Dot, "."),
        (Kind.Number, String.mk "50".toList), (Kind.End, "")] :=
  number_no_sign_no_point "12".toList "50".toList [] (by decide) (by decide) (by decide)
    (by decide)

/-! ## The shape of `Number` and `Identifier` lexemes -/

theorem std_isalpha_not_digit {c : Char} (h : std_isalpha c = true) : is_digit c = false := by
  cases hd : is_digit c
  · rfl
  · have h2 := is_digit_toNat hd
    simp only [std_isalpha, Bool.or_eq_true, Bool.and_eq_true, decide_eq_true_eq] at h
    have h65 : 'A'.toNat = 65 := rfl
    have h97 : 'a'.toNat = 97 := rfl
    omega

/-- The scanner before whitespace, a digit `c`, a run of digits and a character
`c2` that is not a digit. -/
theorem next_number_at (pre w : List Char) (c : Char) (run : List Char) (c2 : Char)
    (mem : List Char) (hw : ∀ x ∈ w, is_space x = true) (hc : is_digit c = true)
    (hrun : ∀ x ∈ run, is_digit x = true) (hc2 : is_digit c2 = false) :
    Lexer_a.next (pre ++ w ++ c :: (run ++ c2 :: mem)) { m_begin := pre.length } =
      some (Token.ofRange Kind.Number (pre.length + w.length)
          (pre.length + w.length + 1 + run.length),
        { m_begin := pre.length + w.length + 1 + run.length }) := by
  have hn := number_run (pre ++ w) c run c2 mem hrun hc2
  rw [List.length_append] at hn
  rw [next_skip pre w c _ hw (is_digit_not_space hc), dispatch_digit _ _ _ hc, hn]

/-- The scanner before whitespace, an identifier character `c` that is not a
digit, a run of identifier characters and a character `c2` that is not one. -/
theorem next_identifier_at (pre w : List Char) (c : Char) (run : List Char) (c2 : Char)
    (mem : List Char) (hw : ∀ x ∈ w, is_space x = true) (hc : is_identifier_char c = true)
    (hcd : is_digit c = false) (hrun : ∀ x ∈ run, is_identifier_char x = true)
    (hc2 : is_identifier_char c2 = false) :
    Lexer_a.next (pre ++ w ++ c :: (run ++ c2 :: mem)) { m_begin := pre.length } =
      some (Token.ofRange Kind.Identifier (pre.length + w.length)
          (pre.length + w.length + 1 + run.length),
        { m_begin := pre.length + w.length + 1 + run.length }) := by
  have hn := Identifier_run (pre ++ w) c run c2 mem hrun hc2
  rw [List.length_append] at hn
  rw [next_skip pre w c _ hw (is_identifier_char_not_space hc),
    dispatch_identifier _ _ _ hc hcd, hn]

/-- The lexeme of the token built from the range over `c :: run`, its characters
and the character after it. -/
theorem run_token_shape (kind : Kind) (pre w : List Char) (c : Char) (run : List Char)
    (c2 : Char) (mem : List Char) :
    (Token.ofRange kind (pre.length + w.length) (pre.length + w.length + 1 + run.length)).lexeme =
        { data := some (pre.length + w.length), size := 1 + run.length } ∧
      (Token.ofRange kind (pre.length + w.length)
        (pre.length + w.length + 1 + run.length)).lexeme.chars
          (pre ++ w ++ c :: (run ++ c2 :: mem)) = c :: run ∧
      (pre ++ w ++ c :: (run ++ c2 :: mem))[pre.length + w.length + (1 + run.length)]? =
        some c2 := by
  have hsz : pre.length + w.length + 1 + run.length - (pre.length + w.length) =
      1 + run.length := by omega
  have hl : (Token.ofRange kind (pre.length + w.length)
      (pre.length + w.length + 1 + run.length)).lexeme =
      { data := some (pre.length + w.length), size := 1 + run.length } := by
    simp only [Token.ofRange, Token.lexeme, hsz]
  refine ⟨hl, ?_, ?_⟩
  · have h := ofRange_chars kind (pre ++ w) (c :: run) (c2 :: mem)
    have hb : pre ++ w ++ c :: run ++ c2 :: mem = pre ++ w ++ c :: (run ++ c2 :: mem) := by simp
    have hlen : (pre ++ w).length + (c :: run).length =
        pre.length + w.length + 1 + run.length := by
      simp only [List.length_append, List.length_cons]
      omega
    rw [hb, hlen, List.length_append] at h
    exact h
  · have h := peek_at (pre ++ w ++ c :: run) c2 mem
    have hb : pre ++ w ++ c :: run ++ c2 :: mem = pre ++ w ++ c :: (run ++ c2 :: mem) := by simp
    have hlen : (pre ++ w ++ c :: run).length = pre.length + w.length + (1 + run.length) := by
      simp only [List.length_append, List.length_cons]
      omega
    rw [hb, hlen] at h
    simpa [Lexer_a.peek] using h

/-- One call of `next()` before a whitespace run `w` and a remainder `r2` without
terminator that does not start with whitespace, followed by the terminator: the
call returns, a `Number` lexeme is a non-empty run of digits that a character
other than a digit follows, and an `Identifier` lexeme is a non-empty run of
identifier characters that does not start with a digit and that a character
other than an identifier character follows. -/
theorem next_kind_shape (pre w r2 rest : List Char) (hw : ∀ x ∈ w, is_space x = true)
    (hr2 : ∀ c, r2.head? = some c → is_space c = false) (h0 : '\x00' ∉ r2) :
    ∃ t lx, Lexer_a.next (pre ++ w ++ (r2 ++ '\x00' :: rest)) { m_begin := pre.length } =
        some (t, lx) ∧
      (t.kind = Kind.Number → ∃ st len c,
        t.lexeme = { data := some st, size := len } ∧ 0 < len ∧
        (t.lexeme.chars (pre ++ w ++ (r2 ++ '\x00' :: rest))).length = len ∧
        (∀ x ∈ t.lexeme.chars (pre ++ w ++ (r2 ++ '\x00' :: rest)), is_digit x = true) ∧
        (pre ++ w ++ (r2 ++ '\x00' :: rest))[st + len]? = some c ∧ is_digit c = false) ∧
      (t.kind = Kind.Identifier → ∃ st len c,
        t.lexeme = { data := some st, size := len } ∧ 0 < len ∧
        (t.lexeme.chars (pre ++ w ++ (r2 ++ '\x00' :: rest))).length = len ∧
        (∀ x ∈ t.lexeme.chars (pre ++ w ++ (r2 ++ '\x00' :: rest)),
          is_identifier_char x = true) ∧
        (∀ x, (t.lexeme.chars (pre ++ w ++ (r2 ++ '\x00' :: rest))).head? = some x →
          is_digit x = false) ∧
        (pre ++ w ++ (r2 ++ '\x00' :: rest))[st + len]? = some c ∧
        is_identifier_char c = false) := by
  cases r2 with
  | nil =>
    refine ⟨_, _, next_whitespace_End pre w rest hw, ?_, ?_⟩ <;>
      · intro h
        exact absurd h (by decide)
  | cons c r3 =>
    have hcs : is_space c = false := hr2 c rfl
    have hc0 : c ≠ '\x00' := by
      intro h
      exact h0 (by simp [h])
    by_cases hp : ∃ p ∈ punctuation, c = p.1
    · obtain ⟨p, hp, rfl⟩ := hp
      have hk := punctuation_kinds p hp
      refine ⟨_, _, next_punct_at pre w p (r3 ++ '\x00' :: rest) hw hp, ?_, ?_⟩
      · intro h
        exact absurd h hk.2.1
      · intro h
        exact absurd h hk.2.2
    · have hp2 : ∀ p ∈ punctuation, c ≠ p.1 := fun p hp1 hcp => hp ⟨p, hp1, hcp⟩
      by_cases hd : is_digit c = true
      · obtain ⟨run, r4, hr, hrun, hr4⟩ := split_run is_digit r3
        obtain ⟨c2, mem, hcm, hc2⟩ := terminated_head is_digit (by decide) r4 rest hr4
        have hb : (c :: r3) ++ '\x00' :: rest = c :: (run ++ c2 :: mem) := by
          rw [hr, List.cons_append, List.append_assoc, hcm]
        obtain ⟨s1, s2, s3⟩ := run_token_shape Kind.Number pre w c run c2 mem
        rw [hb]
        refine ⟨_, _, next_number_at pre w c run c2 mem hw hd hrun hc2, ?_, ?_⟩
        · intro _
          refine ⟨_, _, c2, s1, by omega, ?_, ?_, s3, hc2⟩
          · rw [s2]
            simp only [List.length_cons]
            omega
          · rw [s2]
            intro x hx
            simp only [List.mem_cons] at hx
            rcases hx with rfl | hx
            · exact hd
            · exact hrun x hx
        · intro h
          exact absurd h (by simp [Token.kind, Token.ofRange])
      · have hdf : is_digit c = false := by simpa using hd
        by_cases hi : is_identifier_char c = true
        · obtain ⟨run, r4, hr, hrun, hr4⟩ := split_run is_identifier_char r3
          obtain ⟨c2, mem, hcm, hc2⟩ :=
            terminated_head is_identifier_char (by decide) r4 rest hr4
          have hb : (c :: r3) ++ '\x00' :: rest = c :: (run ++ c2 :: mem) := by
            rw [hr, List.cons_append, List.append_assoc, hcm]
          obtain ⟨s1, s2, s3⟩ := run_token_shape Kind.Identifier pre w c run c2 mem
          rw [hb]
          refine ⟨_, _, next_identifier_at pre w c run c2 mem hw hi hdf hrun hc2, ?_, ?_⟩
          · intro h
            exact absurd h (by simp [Token.kind, Token.ofRange])
          · intro _
            refine ⟨_, _, c2, s1, by omega, ?_, ?_, ?_, s3, hc2⟩
            · rw [s2]
              simp only [List.length_cons]
              omega
            · rw [s2]
              intro x hx
              simp only [List.mem_cons] at hx
              rcases hx with rfl | hx
              · exact hi
              · exact hrun x hx
            · rw [s2]
              intro x hx
              simp only [List.head?_cons, Option.some.injEq] at hx
              rw [← hx]
              exact hdf
        · have hif : is_identifier_char c = false := by simpa using hi
          have hn : Lexer_a.next (pre ++ w ++ (c :: r3 ++ '\x00' :: rest))
              { m_begin := pre.length } =
              some (Token.ofLen Kind.Error (pre.length + w.length) 1,
                { m_begin := pre.length + w.length + 1 }) := by
            rw [List.cons_append, next_skip pre w c _ hw hcs, dispatch_default _ _ c hc0 hp2]
            simp [hdf, hif]
          refine ⟨_, _, hn, ?_, ?_⟩ <;>
            · intro h
              exact absurd h (by simp [Token.kind, Token.ofLen])

/-- C17. On a null-terminated input, a `Number` token of `next()` has a non-empty
lexeme of digits that a character other than a digit follows, and an
`Identifier` token has a non-empty lexeme of letters, digits and underscores
whose first character is not a digit and that a character other than these
follows.  In particular a run of digits `d` directly followed by a run `w` of
identifier characters that starts with a letter gives `Number d` and then
`Identifier w`. -/
theorem lexeme_shape (s rest : List Char) (h0 : '\x00' ∉ s) (pos : Nat)
    (hpos : pos ≤ s.length) :
    (∃ t lx, Lexer_a.next (s ++ '\x00' :: rest) { m_begin := pos } = some (t, lx) ∧
      (t.kind = Kind.Number → ∃ st len c,
        t.lexeme = { data := some st, size := len } ∧ 0 < len ∧
        (t.lexeme.chars (s ++ '\x00' :: rest)).length = len ∧
        (∀ x ∈ t.lexeme.chars (s ++ '\x00' :: rest), is_digit x = true) ∧
        (s ++ '\x00' :: rest)[st + len]? = some c ∧ is_digit c = false) ∧
      (t.kind = Kind.Identifier → ∃ st len c,
        t.lexeme = { data := some st, size := len } ∧ 0 < len ∧
        (t.lexeme.chars (s ++ '\x00' :: rest)).length = len ∧
        (∀ x ∈ t.lexeme.chars (s ++ '\x00' :: rest), is_identifier_char x = true) ∧
        (∀ x, (t.lexeme.chars (s ++ '\x00' :: rest)).head? = some x → is_digit x = false) ∧
        (s ++ '\x00' :: rest)[st + len]? = some c ∧ is_identifier_char c = false)) ∧
    ∀ d w : List Char, d ≠ [] → (∀ x ∈ d, is_digit x = true) → w ≠ [] →
      (∀ x ∈ w, is_identifier_char x = true) →
      (∀ x, w.head? = some x → std_isalpha x = true) →
      (Lexer_a.calls (d ++ w ++ '\x00' :: rest) 2 { m_begin := 0 }).map
          (fun r => r.1.map (Token.view (d ++ w ++ '\x00' :: rest))) =
        some [(Kind.Number, String.mk d), (Kind.Identifier, String.mk w)] := by
  constructor
  · obtain ⟨w, r2, hr, hw, hr2⟩ := split_run is_space (s.drop pos)
    have hs : s = s.take pos ++ (w ++ r2) := by rw [← hr, List.take_append_drop]
    have hpre : (s.take pos).length = pos := by simp [hpos]
    have h0r : '\x00' ∉ r2 := by
      intro h
      apply h0
      rw [hs]
      simp [h]
    have hb : s.take pos ++ w ++ (r2 ++ '\x00' :: rest) = s ++ '\x00' :: rest := by
      conv_rhs => rw [hs]
      simp [List.append_assoc]
    have h := next_kind_shape (s.take pos) w r2 rest hw hr2 h0r
    rw [hb, hpre] at h
    exact h
  · intro d w hd hdd hw hwi hwa
    cases w with
    | nil => exact absurd rfl hw
    | cons w0 wt =>
      have hw0a : std_isalpha w0 = true := hwa w0 rfl
      have hw0d : is_digit w0 = false := std_isalpha_not_digit hw0a
      have hw0i : is_identifier_char w0 = true := hwi w0 (by simp)
      have hwt : ∀ x ∈ wt, is_identifier_char x = true := fun x hx => hwi x (by simp [hx])
      have hB : d ++ w0 :: wt ++ '\x00' :: rest = d ++ w0 :: (wt ++ '\x00' :: rest) := by simp
      have h1 : Lexer_a.next (d ++ w0 :: (wt ++ '\x00' :: rest)) { m_begin := 0 } =
          some (Token.ofRange Kind.Number 0 d.length, { m_begin := d.length }) := by
        simpa using next_digits_at [] d w0 (wt ++ '\x00' :: rest) hd hdd hw0d
      have h2 : Lexer_a.next (d ++ w0 :: (wt ++ '\x00' :: rest)) { m_begin := d.length } =
          some (Token.ofRange Kind.Identifier d.length (d.length + 1 + wt.length),
            { m_begin := d.length + 1 + wt.length }) := by
        simpa using next_identifier_at d [] w0 wt '\x00' rest (by simp) hw0i hw0d hwt
          (by decide)
      have c1 : (Token.ofRange Kind.Number 0 d.length).lexeme.chars
          (d ++ w0 :: (wt ++ '\x00' :: rest)) = d := by
        simpa using ofRange_chars Kind.Number [] d (w0 :: (wt ++ '\x00' :: rest))
      have c2 : (Token.ofRange Kind.Identifier d.length (d.length + 1 + wt.length)).lexeme.chars
          (d ++ w0 :: (wt ++ '\x00' :: rest)) = w0 :: wt := by
        have := (run_token_shape Kind.Identifier d [] w0 wt '\x00' rest).2.1
        simpa using this
      have hc := calls_succ _ 1 _ _ _ _ _ h1 (calls_succ _ 0 _ _ _ _ _ h2 rfl)
      rw [hB, hc]
      simp only [Option.map_some', List.map_cons, List.map_nil, Token.view, c1, c2]
      rfl

theorem lexeme_shape_witness :
    (∃ t lx, Lexer_a.next ("x 12ab".toList ++ '\x00' :: []) { m_begin := 1 } = some (t, lx) ∧
      (t.kind = Kind.Number → ∃ st len c,
        t.lexeme = { data := some st, size := len } ∧ 0 < len ∧
        (t.lexeme.chars ("x 12ab".toList ++ '\x00' :: [])).length = len ∧
        (∀ x ∈ t.lexeme.chars ("x 12ab".toList ++ '\x00' :: []), is_digit x = true) ∧
        ("x 12ab".toList ++ '\x00' :: [])[st + len]? = some c ∧ is_digit c = false) ∧
      (t.kind = Kind.Identifier → ∃ st len c,
        t.lexeme = { data := some st, size := len } ∧ 0 < len ∧
        (t.lexeme.chars ("x 12ab".toList ++ '\x00' :: [])).length = len ∧
        (∀ x ∈ t.lexeme.chars ("x 12ab".toList ++ '\x00' :: []),
          is_identifier_char x = true) ∧
        (∀ x, (t.lexeme.chars ("x 12ab".toList ++ '\x00' :: [])).head? = some x →
          is_digit x = false) ∧
        ("x 12ab".toList ++ '\x00' :: [])[st + len]? = some c ∧
        is_identifier_char c = false)) ∧
    (Lexer_a.calls ("12".toList ++ "ab".toList ++ '\x00' :: []) 2 { m_begin := 0 }).map
        (fun r => r.1.map (Token.view ("12".toList ++ "ab".toList ++ '\x00' :: []))) =
      some [(Kind.Number, String.mk "12".toList), (Kind.Identifier, String.mk "ab".toList)] :=
  ⟨(lexeme_shape "x 12ab".toList [] (by decide) 1 (by decide)).1,
   (lexeme_shape "x 12ab".toList [] (by decide) 1 (by decide)).2 "12".toList "ab".toList
     (by decide) (by decide) (by decide) (by decide) (by decide)⟩

/-! ## What `next()` reads -/

/-- A loop that ends inside the memory `mem` ends at a cursor inside `mem`, and
ends at the same cursor when more memory follows `mem`. -/
theorem get_while_some (pred : Char → Bool) (mem : List Char) (lx lx1 : Lexer_a)
    (h : Lexer_a.get_while pred mem lx = some lx1) :
    lx.m_begin ≤ lx1.m_begin ∧ lx1.m_begin < lx.m_begin + mem.length ∧
      ∀ tail, Lexer_a.get_while pred (mem ++ tail) lx = some lx1 := by
  induction mem generalizing lx with
  | nil => simp [Lexer_a.get_while] at h
  | cons x mem ih =>
    cases hx : pred x
    · simp only [Lexer_a.get_while, hx, Bool.false_eq_true, if_false, Option.some.injEq] at h
      subst h
      refine ⟨Nat.le_refl _, by simp, ?_⟩
      intro tail
      simp [Lexer_a.get_while, hx]
    · simp only [Lexer_a.get_while, hx, if_true] at h
      obtain ⟨h1, h2, h3⟩ := ih _ h
      simp only at h1 h2
      refine ⟨by omega, by simp only [List.length_cons]; omega, ?_⟩
      intro tail
      simp only [List.cons_append, Lexer_a.get_while, hx, if_true]
      exact h3 tail

/-- Two memories with the same content from offset `c` on have the same content
from any later offset on. -/
theorem drop_agree {buf1 buf2 : List Char} {c : Nat} (h : buf1.drop c = buf2.drop c) (i : Nat)
    (hi : c ≤ i) : buf1.drop i = buf2.drop i := by
  have h1 := List.drop_drop (i - c) c buf1
  have h2 := List.drop_drop (i - c) c buf2
  have hci : c + (i - c) = i := by omega
  rw [hci] at h1 h2
  rw [← h1, ← h2, h]

theorem getElem?_agree {buf1 buf2 : List Char} {c : Nat} (h : buf1.drop c = buf2.drop c)
    (i : Nat) (hi : c ≤ i) : buf1[i]? = buf2[i]? := by
  rw [← List.head?_drop, ← List.head?_drop, drop_agree h i hi]

theorem number_agree {buf1 buf2 : List Char} {c : Nat} (h : buf1.drop c = buf2.drop c)
    (lx : Lexer_a) (hc : c ≤ lx.m_begin) : lx.number buf1 = lx.number buf2 := by
  simp only [Lexer_a.number, Lexer_a.get, getElem?_agree h lx.m_begin hc]
  cases buf2[lx.m_begin]? with
  | none => rfl
  | some x => simp only [drop_agree h (lx.m_begin + 1) (by omega)]

theorem Identifier_agree {buf1 buf2 : List Char} {c : Nat} (h : buf1.drop c = buf2.drop c)
    (lx : Lexer_a) (hc : c ≤ lx.m_begin) : lx.Identifier buf1 = lx.Identifier buf2 := by
  simp only [Lexer_a.Identifier, Lexer_a.get, getElem?_agree h lx.m_begin hc]
  cases buf2[lx.m_begin]? with
  | none => rfl
  | some x => simp only [drop_agree h (lx.m_begin + 1) (by omega)]

theorem dispatch_agree {buf1 buf2 : List Char} {c : Nat} (h : buf1.drop c = buf2.drop c)
    (lx : Lexer_a) (hc : c ≤ lx.m_begin) (x : Char) :
    lx.dispatch buf1 x = lx.dispatch buf2 x := by
  simp only [Lexer_a.dispatch, number_agree h lx hc, Identifier_agree h lx hc]

/-- The result of `next()` depends on the memory from the cursor on only. -/
theorem next_agree {buf1 buf2 : List Char} {c : Nat} (h : buf1.drop c = buf2.drop c) :
    Lexer_a.next buf1 { m_begin := c } = Lexer_a.next buf2 { m_begin := c } := by
  simp only [Lexer_a.next, h]
  cases hw : Lexer_a.get_while is_space (buf2.drop c) { m_begin := c } with
  | none => rfl
  | some lx1 =>
    have hge : c ≤ lx1.m_begin := (get_while_some _ _ _ _ hw).1
    simp only [Lexer_a.peek, getElem?_agree h lx1.m_begin hge]
    cases buf2[lx1.m_begin]? with
    | none => rfl
    | some x => exact dispatch_agree h lx1 hge x

theorem getElem?_append_of_some {buf : List Char} {i : Nat} {x : Char} (tail : List Char)
    (h : buf[i]? = some x) : (buf ++ tail)[i]? = some x := by
  have hi : i < buf.length := by
    by_contra hn
    rw [List.getElem?_eq_none (by omega)] at h
    cases h
  rw [List.getElem?_append_left hi, h]

theorem number_append {buf : List Char} {lx : Lexer_a} {r : Token × Lexer_a} (tail : List Char)
    (h : lx.number buf = some r) : lx.number (buf ++ tail) = some r := by
  unfold Lexer_a.number Lexer_a.get at h ⊢
  cases hg : buf[lx.m_begin]? with
  | none => simp [hg] at h
  | some x =>
    have hi : lx.m_begin < buf.length := by
      by_contra hn
      rw [List.getElem?_eq_none (by omega)] at hg
      cases hg
    have hd : (buf ++ tail).drop (lx.m_begin + 1) = buf.drop (lx.m_begin + 1) ++ tail :=
      List.drop_append_of_le_length (by omega)
    simp only [hg, getElem?_append_of_some tail hg, hd] at h ⊢
    cases hw : Lexer_a.get_while is_digit (buf.drop (lx.m_begin + 1))
        { m_begin := lx.m_begin + 1 } with
    | none => simp [hw] at h
    | some lx2 =>
      rw [(get_while_some _ _ _ _ hw).2.2 tail]
      simpa [hw] using h

theorem Identifier_append {buf : List Char} {lx : Lexer_a} {r : Token × Lexer_a}
    (tail : List Char) (h : lx.Identifier buf = some r) :
    lx.Identifier (buf ++ tail) = some r := by
  unfold Lexer_a.Identifier Lexer_a.get at h ⊢
  cases hg : buf[lx.m_begin]? with
  | none => simp [hg] at h
  | some x =>
    have hi : lx.m_begin < buf.length := by
      by_contra hn
      rw [List.getElem?_eq_none (by omega)] at hg
      cases hg
    have hd : (buf ++ tail).drop (lx.m_begin + 1) = buf.drop (lx.m_begin + 1) ++ tail :=
      List.drop_append_of_le_length (by omega)
    simp only [hg, getElem?_append_of_some tail hg, hd] at h ⊢
    cases hw : Lexer_a.get_while is_identifier_char (buf.drop (lx.m_begin + 1))
        { m_begin := lx.m_begin + 1 } with
    | none => simp [hw] at h
    | some lx2 =>
      rw [(get_while_some _ _ _ _ hw).2.2 tail]
      simpa [hw] using h

theorem dispatch_append {buf : List Char} {lx : Lexer_a} {x : Char} {r : Token × Lexer_a}
    (tail : List Char) (h : lx.dispatch buf x = some r) :
    lx.dispatch (buf ++ tail) x = some r := by
  by_cases h0 : x = '\x00'
  · subst h0
    rw [dispatch_zero] at h ⊢
    exact h
  · by_cases hp : ∃ p ∈ punctuation, x = p.1
    · obtain ⟨p, hp, rfl⟩ := hp
      rw [dispatch_punctuation _ _ p hp] at h ⊢
      exact h
    · have hp2 : ∀ p ∈ punctuation, x ≠ p.1 := fun p hp1 hcp => hp ⟨p, hp1, hcp⟩
      rw [dispatch_default _ _ x h0 hp2] at h ⊢
      by_cases hd : is_digit x = true
      · rw [if_pos hd] at h ⊢
        exact number_append tail h
      · rw [if_neg hd] at h ⊢
        by_cases hi : is_identifier_char x = true
        · rw [if_pos hi] at h ⊢
          exact Identifier_append tail h
        · rw [if_neg hi] at h ⊢
          exact h

/-- A call of `next()` that stays inside the memory `buf` returns the same when
more memory follows `buf`. -/
theorem next_append {buf : List Char} {lx : Lexer_a} {r : Token × Lexer_a} (tail : List Char)
    (h : lx.next buf = some r) : lx.next (buf ++ tail) = some r := by
  unfold Lexer_a.next at h ⊢
  cases hw : Lexer_a.get_while is_space (buf.drop lx.m_begin) lx with
  | none => simp [hw] at h
  | some lx1 =>
    obtain ⟨_, h2, h3⟩ := get_while_some _ _ _ _ hw
    have hi : lx.m_begin ≤ buf.length := by
      by_contra hn
      rw [List.drop_eq_nil_of_le (by omega)] at hw
      simp [Lexer_a.get_while] at hw
    have hd : (buf ++ tail).drop lx.m_begin = buf.drop lx.m_begin ++ tail :=
      List.drop_append_of_le_length hi
    rw [hd, h3 tail]
    simp only [hw] at h ⊢
    cases hp : lx1.peek buf with
    | none => simp [hp] at h
    | some x =>
      have hp2 : lx1.peek (buf ++ tail) = some x := getElem?_append_of_some tail hp
      simp only [hp, hp2] at h ⊢
      exact dispatch_append tail h

/-- Two lists with the same entries at the positions `c` to `n` have the same
part from `c` to `n`. -/
theorem take_drop_agree (l1 l2 : List Char) (c n : Nat)
    (h : ∀ i, c ≤ i → i ≤ n → l1[i]? = l2[i]?) :
    (l1.take (n + 1)).drop c = (l2.take (n + 1)).drop c := by
  apply List.ext_getElem?
  intro j
  rw [List.getElem?_drop, List.getElem?_drop]
  by_cases hj : c + j < n + 1
  · rw [List.getElem?_take_of_lt hj, List.getElem?_take_of_lt hj]
    exact h (c + j) (by omega) (by omega)
  · rw [List.getElem?_take_eq_none (by omega), List.getElem?_take_eq_none (by omega)]

theorem take_terminated (s rest : List Char) :
    (s ++ '\x00' :: rest).take (s.length + 1) = s ++ ['\x00'] := by
  have : s ++ '\x00' :: rest = (s ++ ['\x00']) ++ rest := by simp
  rw [this]
  have hl : s.length + 1 = (s ++ ['\x00']).length := by simp
  rw [hl, List.take_left]

/-- C14. On a memory whose first terminator is at index `n = s.length`, from a
cursor `c ≤ n`, `next()` returns (it does not read outside the memory), leaves
the cursor between `c` and `n`, and returns `End` with an empty lexeme or a
token whose span lies between `c` and `n`; and it reads the positions `c` to `n`
only: on every memory with the same characters at these positions, whatever it
holds elsewhere and wherever it ends after `n`, the call returns the same. -/
theorem reads_within_input (s rest : List Char) (h0 : '\x00' ∉ s) (c : Nat)
    (hc : c ≤ s.length) :
    ∃ t lx, Lexer_a.next (s ++ '\x00' :: rest) { m_begin := c } = some (t, lx) ∧
      c ≤ lx.m_begin ∧ lx.m_begin ≤ s.length ∧
      ((t.kind = Kind.End ∧ t.lexeme.size = 0) ∨
        ∃ st len, t.lexeme = { data := some st, size := len } ∧ c ≤ st ∧
          st + len ≤ s.length) ∧
      ∀ buf2 : List Char,
        (∀ i, c ≤ i → i ≤ s.length → buf2[i]? = (s ++ '\x00' :: rest)[i]?) →
        Lexer_a.next buf2 { m_begin := c } = some (t, lx) := by
  obtain ⟨t, pos2, hn, hcase⟩ := next_spec s [] h0 c hc
  have hsplit : s ++ '\x00' :: rest = (s ++ ['\x00']) ++ rest := by simp
  refine ⟨t, { m_begin := pos2 }, ?_, ?_, ?_, ?_, ?_⟩
  · rw [hsplit]
    exact next_append rest hn
  · rcases hcase with ⟨_, h, _⟩ | ⟨st, len, h1, _, _, h3, _⟩
    · simp only
      omega
    · simp only
      omega
  · rcases hcase with ⟨_, h, _⟩ | ⟨st, len, _, _, h2, h3, _⟩
    · simp only
      omega
    · simp only
      omega
  · rcases hcase with ⟨h, _, _⟩ | ⟨st, len, h1, _, h2, _, _, hl, _⟩
    · left
      rw [h]
      exact ⟨rfl, rfl⟩
    · right
      exact ⟨st, len, hl, h1, h2⟩
  · intro buf2 h2
    have ha := take_drop_agree buf2 (s ++ '\x00' :: rest) c s.length h2
    rw [take_terminated] at ha
    have h3 : Lexer_a.next (buf2.take (s.length + 1)) { m_begin := c } =
        some (t, { m_begin := pos2 }) := by
      rw [next_agree ha]
      exact hn
    have h4 := next_append (buf2.drop (s.length + 1)) h3
    rw [List.take_append_drop] at h4
    exact h4

theorem reads_within_input_witness :
    ∃ t lx, Lexer_a.next ("ab 12+".toList ++ '\x00' :: "junk".toList) { m_begin := 2 } =
        some (t, lx) ∧
      2 ≤ lx.m_begin ∧ lx.m_begin ≤ "ab 12+".toList.length ∧
      ((t.kind = Kind.End ∧ t.lexeme.size = 0) ∨
        ∃ st len, t.lexeme = { data := some st, size := len } ∧ 2 ≤ st ∧
          st + len ≤ "ab 12+".toList.length) ∧
      ∀ buf2 : List Char,
        (∀ i, 2 ≤ i → i ≤ "ab 12+".toList.length →
          buf2[i]? = ("ab 12+".toList ++ '\x00' :: "junk".toList)[i]?) →
        Lexer_a.next buf2 { m_begin := 2 } = some (t, lx) :=
  reads_within_input "ab 12+".toList "junk".toList (by decide) 2 (by decide)

/-! ## Moving the input inside the memory -/

theorem get_while_shift (pred : Char → Bool) (k : Nat) (mem : List Char) (lx : Lexer_a) :
    Lexer_a.get_while pred mem { m_begin := k + lx.m_begin } =
      (Lexer_a.get_while pred mem lx).map (fun l => { m_begin := k + l.m_begin }) := by
  induction mem generalizing lx with
  | nil => rfl
  | cons x mem ih =>
    cases hx : pred x
    · simp [Lexer_a.get_while, hx]
    · simp only [Lexer_a.get_while, hx, if_true]
      exact ih { m_begin := lx.m_begin + 1 }

theorem getElem?_shift (pre mem : List Char) (i : Nat) :
    (pre ++ mem)[pre.length + i]? = mem[i]? := by
  rw [List.getElem?_append_right (Nat.le_add_right _ _), Nat.add_sub_cancel_left]

theorem drop_shift (pre mem : List Char) (i : Nat) :
    (pre ++ mem).drop (pre.length + i) = mem.drop i := by
  rw [← List.drop_drop, List.drop_left]

theorem number_shift (pre mem : List Char) (i : Nat) :
    Lexer_a.number (pre ++ mem) { m_begin := pre.length + i } =
      (Lexer_a.number mem { m_begin := i }).map (shift_result pre.length) := by
  simp only [Lexer_a.number, Lexer_a.get, getElem?_shift]
  cases mem[i]? with
  | none => rfl
  | some x =>
    have hd := drop_shift pre mem (i + 1)
    have hw := get_while_shift is_digit pre.length (mem.drop (i + 1)) { m_begin := i + 1 }
    simp only [Nat.add_assoc, hd, hw]
    cases Lexer_a.get_while is_digit (mem.drop (i + 1)) { m_begin := i + 1 } with
    | none => rfl
    | some lx2 =>
      simp [shift_result, Token.shift, Token.ofRange, Nat.add_sub_add_left]

theorem Identifier_shift (pre mem : List Char) (i : Nat) :
    Lexer_a.Identifier (pre ++ mem) { m_begin := pre.length + i } =
      (Lexer_a.Identifier mem { m_begin := i }).map (shift_result pre.length) := by
  simp only [Lexer_a.Identifier, Lexer_a.get, getElem?_shift]
  cases mem[i]? with
  | none => rfl
  | some x =>
    have hd := drop_shift pre mem (i + 1)
    have hw := get_while_shift is_identifier_char pre.length (mem.drop (i + 1))
      { m_begin := i + 1 }
    simp only [Nat.add_assoc, hd, hw]
    cases Lexer_a.get_while is_identifier_char (mem.drop (i + 1)) { m_begin := i + 1 } with
    | none => rfl
    | some lx2 =>
      simp [shift_result, Token.shift, Token.ofRange, Nat.add_sub_add_left]

theorem dispatch_shift (pre mem : List Char) (i : Nat) (x : Char) :
    Lexer_a.dispatch (pre ++ mem) { m_begin := pre.length + i } x =
      (Lexer_a.dispatch mem { m_begin := i } x).map (shift_result pre.length) := by
  by_cases h0 : x = '\x00'
  · subst h0
    rw [dispatch_zero, dispatch_zero]
    rfl
  · by_cases hp : ∃ p ∈ punctuation, x = p.1
    · obtain ⟨p, hp, rfl⟩ := hp
      rw [dispatch_punctuation _ _ p hp, dispatch_punctuation _ _ p hp]
      rfl
    · have hp2 : ∀ p ∈ punctuation, x ≠ p.1 := fun p hp1 hcp => hp ⟨p, hp1, hcp⟩
      rw [dispatch_default _ _ x h0 hp2, dispatch_default _ _ x h0 hp2]
      by_cases hd : is_digit x = true
      · rw [if_pos hd, if_pos hd]
        exact number_shift pre mem i
      · rw [if_neg hd, if_neg hd]
        by_cases hi : is_identifier_char x = true
        · rw [if_pos hi, if_pos hi]
          exact Identifier_shift pre mem i
        · rw [if_neg hi, if_neg hi]
          rfl

/-- A call of `next()` on the memory `pre ++ mem` from a cursor in `mem` is the
call on `mem` alone, moved by the length of `pre`. -/
theorem next_shift (pre mem : List Char) (i : Nat) :
    Lexer_a.next (pre ++ mem) { m_begin := pre.length + i } =
      (Lexer_a.next mem { m_begin := i }).map (shift_result pre.length) := by
  have hw := get_while_shift is_space pre.length (mem.drop i) { m_begin := i }
  simp only [Lexer_a.next, drop_shift, hw]
  cases Lexer_a.get_while is_space (mem.drop i) { m_begin := i } with
  | none => rfl
  | some lx1 =>
    simp only [Option.map_some', Lexer_a.peek, getElem?_shift]
    cases mem[lx1.m_begin]? with
    | none => rfl
    | some x => exact dispatch_shift pre mem lx1.m_begin x

/-- A token moved with the memory shows the same kind and characters. -/
theorem view_shift (pre mem : List Char) (t : Token) :
    Token.view (pre ++ mem) (t.shift pre.length) = Token.view mem t := by
  cases hd : t.m_lexeme.data with
  | none => simp [Token.view, Token.shift, Token.kind, Token.lexeme, StringView.chars, hd]
  | some b =>
    simp [Token.view, Token.shift, Token.kind, Token.lexeme, StringView.chars, hd, drop_shift]

/-- The consumption loop on the memory `pre ++ mem` from a cursor in `mem` shows
the kinds and characters of the loop on `mem` alone. -/
theorem views_shift (pre mem : List Char) (fuel i : Nat) :
    Lexer_a.views (pre ++ mem) fuel { m_begin := pre.length + i } =
      Lexer_a.views mem fuel { m_begin := i } := by
  induction fuel generalizing i with
  | zero => rfl
  | succ fuel ih =>
    have ih2 := fun j => ih j
    simp only [Lexer_a.views] at ih2 ⊢
    simp only [Lexer_a.tokens_before_End, next_shift]
    cases Lexer_a.next mem { m_begin := i } with
    | none => rfl
    | some r =>
      have hk : (r.1.shift pre.length).kind = r.1.kind := rfl
      simp only [Option.map_some', shift_result, hk]
      by_cases he : r.1.kind = Kind.End
      · simp [he]
      · simp only [he, if_false]
        have := ih2 r.2.m_begin
        cases hA : Lexer_a.tokens_before_End (pre ++ mem) fuel
            { m_begin := pre.length + r.2.m_begin } with
        | none =>
          rw [hA] at this
          cases hB : Lexer_a.tokens_before_End mem fuel r.2 with
          | none => rfl
          | some tb => simp [hB] at this
        | some ta =>
          rw [hA] at this
          cases hB : Lexer_a.tokens_before_End mem fuel r.2 with
          | none => simp [hB] at this
          | some tb =>
            simp only [hB, Option.map_some', Option.some.injEq] at this
            simp [this, view_shift]

/-! ## Tokens on both sides of a whitespace run -/

theorem get_while_skip (pred : Char → Bool) (w1 mem : List Char) (lx : Lexer_a)
    (h : ∀ x ∈ w1, pred x = true) :
    Lexer_a.get_while pred (w1 ++ mem) lx =
      Lexer_a.get_while pred mem { m_begin := lx.m_begin + w1.length } := by
  induction w1 generalizing lx with
  | nil => rfl
  | cons x w1 ih =>
    have hx : pred x = true := h x (by simp)
    have h2 : ∀ y ∈ w1, pred y = true := fun y hy => h y (by simp [hy])
    have hstep : Lexer_a.get_while pred ((x :: w1) ++ mem) lx =
        Lexer_a.get_while pred (w1 ++ mem) { m_begin := lx.m_begin + 1 } := by
      simp [Lexer_a.get_while, hx]
    rw [hstep, ih _ h2]
    have : lx.m_begin + 1 + w1.length = lx.m_begin + (x :: w1).length := by
      simp only [List.length_cons]
      omega
    rw [this]

/-- A call of `next()` from the start of a whitespace run is the call from its
end. -/
theorem next_over_whitespace (pre w1 mem : List Char) (hw : ∀ x ∈ w1, is_space x = true) :
    Lexer_a.next (pre ++ w1 ++ mem) { m_begin := pre.length } =
      Lexer_a.next (pre ++ w1 ++ mem) { m_begin := pre.length + w1.length } := by
  have hd1 : (pre ++ w1 ++ mem).drop pre.length = w1 ++ mem := by
    rw [List.append_assoc, List.drop_left]
  have hd2 : (pre ++ w1 ++ mem).drop (pre.length + w1.length) = mem := by
    rw [← List.length_append, List.drop_left]
  simp only [Lexer_a.next, hd1, hd2, get_while_skip is_space w1 mem _ hw]

theorem get_while_end_agree (pred : Char → Bool) (r : List Char) (x y : Char)
    (m1 m2 : List Char) (lx : Lexer_a) (hx : pred x = false) (hy : pred y = false) :
    Lexer_a.get_while pred (r ++ x :: m1) lx = Lexer_a.get_while pred (r ++ y :: m2) lx := by
  induction r generalizing lx with
  | nil => simp [Lexer_a.get_while, hx, hy]
  | cons z r ih =>
    cases hz : pred z
    · simp [Lexer_a.get_while, hz]
    · simp only [List.cons_append, Lexer_a.get_while, hz, if_true]
      exact ih _

theorem not_identifier_not_digit {x : Char} (h : is_identifier_char x = false) :
    is_digit x = false := by
  cases hd : is_digit x
  · rfl
  · rw [is_digit_is_identifier_char hd] at h
    cases h

theorem drop_after (P : List Char) (c : Char) (M : List Char) :
    (P ++ c :: M).drop (P.length + 1) = M := by
  have : P ++ c :: M = (P ++ [c]) ++ M := by simp
  rw [this, ← List.length_singleton c, ← List.length_append, List.drop_left]

theorem number_end_agree (P : List Char) (c : Char) (r3 : List Char) (x y : Char)
    (m1 m2 : List Char) (hx : is_digit x = false) (hy : is_digit y = false) :
    Lexer_a.number (P ++ c :: (r3 ++ x :: m1)) { m_begin := P.length } =
      Lexer_a.number (P ++ c :: (r3 ++ y :: m2)) { m_begin := P.length } := by
  simp only [Lexer_a.number, get_at, drop_after,
    get_while_end_agree is_digit r3 x y m1 m2 _ hx hy]

theorem Identifier_end_agree (P : List Char) (c : Char) (r3 : List Char) (x y : Char)
    (m1 m2 : List Char) (hx : is_identifier_char x = false)
    (hy : is_identifier_char y = false) :
    Lexer_a.Identifier (P ++ c :: (r3 ++ x :: m1)) { m_begin := P.length } =
      Lexer_a.Identifier (P ++ c :: (r3 ++ y :: m2)) { m_begin := P.length } := by
  simp only [Lexer_a.Identifier, get_at, drop_after,
    get_while_end_agree is_identifier_char r3 x y m1 m2 _ hx hy]

/-- A call of `next()` at a character `c` that is not whitespace returns the
same whichever character, not an identifier character, ends the run `r3` after
`c`, and whatever follows. -/
theorem next_end_agree (P0 w0 : List Char) (c : Char) (r3 : List Char) (x y : Char)
    (m1 m2 : List Char) (hw0 : ∀ z ∈ w0, is_space z = true) (hc : is_space c = false)
    (hx : is_identifier_char x = false) (hy : is_identifier_char y = false) :
    Lexer_a.next (P0 ++ w0 ++ c :: (r3 ++ x :: m1)) { m_begin := P0.length } =
      Lexer_a.next (P0 ++ w0 ++ c :: (r3 ++ y :: m2)) { m_begin := P0.length } := by
  rw [next_skip P0 w0 c _ hw0 hc, next_skip P0 w0 c _ hw0 hc]
  have hn := number_end_agree (P0 ++ w0) c r3 x y m1 m2 (not_identifier_not_digit hx)
    (not_identifier_not_digit hy)
  have hi := Identifier_end_agree (P0 ++ w0) c r3 x y m1 m2 hx hy
  rw [List.length_append] at hn hi
  simp only [Lexer_a.dispatch, hn, hi]

/-- The consumption loop only uses the cursor through `next()`. -/
theorem tokens_before_End_congr (buf : List Char) (fuel : Nat) (lx lx2 : Lexer_a)
    (h : lx.next buf = lx2.next buf) :
    Lexer_a.tokens_before_End buf fuel lx = Lexer_a.tokens_before_End buf fuel lx2 := by
  cases fuel with
  | zero => rfl
  | succ fuel => simp only [Lexer_a.tokens_before_End, h]

/-- The tokens of the input `s1` are returned unchanged when, instead of the
terminator, a non-empty whitespace run `w` and more memory follow `s1`; after
them the loop goes on with the tokens `tC` it returns from the end of `w`. -/
theorem tokens_before_whitespace (s1 w memA restB : List Char) (h1 : '\x00' ∉ s1)
    (hwne : w ≠ []) (hws : ∀ x ∈ w, is_space x = true) (tC : List Token) (K : Nat)
    (hC : ∀ fuel, K < fuel →
      Lexer_a.tokens_before_End (s1 ++ w ++ memA) fuel { m_begin := s1.length + w.length } =
        some tC) :
    ∀ m pos, s1.length - pos = m → pos ≤ s1.length →
      ∃ tB,
        (∀ fuel, m < fuel →
          Lexer_a.tokens_before_End (s1 ++ '\x00' :: restB) fuel { m_begin := pos } =
            some tB) ∧
        (∀ fuel, m + K < fuel →
          Lexer_a.tokens_before_End (s1 ++ w ++ memA) fuel { m_begin := pos } =
            some (tB ++ tC)) ∧
        tB.map (Token.view (s1 ++ w ++ memA)) = tB.map (Token.view (s1 ++ '\x00' :: restB)) := by
  intro m
  induction m using Nat.strong_induction_on with
  | _ m ih =>
    intro pos hm hpos
    obtain ⟨w0, r2, hr, hw0, hr2⟩ := split_run is_space (s1.drop pos)
    have hs : s1 = s1.take pos ++ (w0 ++ r2) := by rw [← hr, List.take_append_drop]
    have hpre : (s1.take pos).length = pos := by simp [hpos]
    have hslen : s1.length = pos + (w0.length + r2.length) := by
      have := congrArg List.length hs
      simpa [hpre] using this
    cases w with
    | nil => exact absurd rfl hwne
    | cons y w2 =>
      have hy : is_space y = true := hws y (by simp)
      have hyi : is_identifier_char y = false := by
        cases h : is_identifier_char y
        · rfl
        · rw [is_identifier_char_not_space h] at hy
          cases hy
      cases r2 with
      | nil =>
        have hs2 : s1 = s1.take pos ++ w0 := by simpa using hs
        have hB : s1 ++ '\x00' :: restB = s1.take pos ++ w0 ++ '\x00' :: restB := by
          conv_lhs => rw [hs2]
        have hA : s1 ++ y :: w2 ++ memA = s1.take pos ++ (w0 ++ y :: w2) ++ memA := by
          conv_lhs => rw [hs2]
          simp [List.append_assoc]
        have hnB := next_whitespace_End (s1.take pos) w0 restB hw0
        rw [← hB, hpre] at hnB
        have hnA := next_over_whitespace (s1.take pos) (w0 ++ y :: w2) memA (by
          intro x hx
          simp only [List.mem_append] at hx
          rcases hx with hx | hx
          · exact hw0 x hx
          · exact hws x hx)
        have hl : pos + (w0 ++ y :: w2).length = s1.length + (y :: w2).length := by
          simp only [List.length_append, List.length_cons, List.length_nil] at hslen ⊢
          omega
        rw [← hA, hpre, hl] at hnA
        refine ⟨[], ?_, ?_, rfl⟩
        · intro fuel hf
          cases fuel with
          | zero => omega
          | succ fuel => simp [Lexer_a.tokens_before_End, hnB, Token.kind, Token.ofKind]
        · intro fuel hf
          rw [tokens_before_End_congr _ fuel _ _ hnA, List.nil_append]
          exact hC fuel (by omega)
      | cons c r3 =>
        have hcs : is_space c = false := hr2 c rfl
        have h0r : '\x00' ∉ c :: r3 := by
          intro h
          apply h1
          rw [hs]
          simp only [List.mem_append]
          exact Or.inr (Or.inr h)
        have hB : s1 ++ '\x00' :: restB =
            s1.take pos ++ w0 ++ (c :: r3 ++ '\x00' :: restB) := by
          conv_lhs => rw [hs]
          simp [List.append_assoc]
        have hA : s1 ++ y :: w2 ++ memA =
            s1.take pos ++ w0 ++ c :: (r3 ++ y :: (w2 ++ memA)) := by
          conv_lhs => rw [hs]
          simp [List.append_assoc]
        obtain ⟨t, p2, hn, hcase⟩ := next_shape (s1.take pos) w0 (c :: r3) restB hw0 hr2 h0r
        have hAB := next_end_agree (s1.take pos) w0 c r3 y '\x00' (w2 ++ memA) restB hw0 hcs
          hyi (by decide)
        rw [← hA, ← List.cons_append, ← hB, hpre] at hAB
        rw [← hB, hpre] at hn
        rw [hpre] at hcase
        rcases hcase with ⟨hnil, _⟩ | ⟨len, hlen0, hlen, hk, hl, hp2, _⟩
        · cases hnil
        · simp only [List.length_cons] at hlen hslen
          obtain ⟨tB, hrunB, hrunA, hview⟩ :=
            ih (s1.length - p2) (by omega) p2 rfl (by omega)
          have hle : pos + w0.length + len ≤ s1.length := by omega
          have hcA := chars_of_span s1 (y :: w2 ++ memA) t _ len hl hle
          have hcB := chars_of_span s1 ('\x00' :: restB) t _ len hl hle
          rw [← List.append_assoc] at hcA
          refine ⟨t :: tB, ?_, ?_, ?_⟩
          · intro fuel hf
            cases fuel with
            | zero => omega
            | succ fuel =>
              have := hrunB fuel (by omega)
              simp [Lexer_a.tokens_before_End, hn, Token.kind, hk, this]
          · intro fuel hf
            cases fuel with
            | zero => omega
            | succ fuel =>
              have := hrunA fuel (by omega)
              simp only [Lexer_a.tokens_before_End, hAB, hn, Token.kind, hk, this, if_false,
                List.cons_append]
          · simp only [List.map_cons, hview, Token.view, hcA, hcB]

/-- The token list of `s1 ++ w ++ s2` is the token list of `s1` followed by the
token list of `s2`. -/
theorem toks_split (s1 s2 w : List Char) (h1 : '\x00' ∉ s1) (h2 : '\x00' ∉ s2) (hwne : w ≠ [])
    (hws : ∀ x ∈ w, is_space x = true) :
    ∃ a b, toks s1 = some a ∧ toks s2 = some b ∧ toks (s1 ++ w ++ s2) = some (a ++ b) := by
  have hS0 : '\x00' ∉ s1 ++ w ++ s2 := by
    intro h
    simp only [List.mem_append] at h
    rcases h with (h | h) | h
    · exact h1 h
    · exact is_space_ne_zero (hws _ h) rfl
    · exact h2 h
  have hSlen : (s1 ++ w ++ s2).length = s1.length + w.length + s2.length := by
    simp only [List.length_append]
  have hbuf : s1 ++ w ++ s2 ++ ['\x00'] = s1 ++ w ++ (s2 ++ ['\x00']) := by
    simp [List.append_assoc]
  obtain ⟨tC, hC, _⟩ := tokens_before_End_spec (s1 ++ w ++ s2) [] hS0
    ((s1 ++ w ++ s2).length - (s1.length + w.length)) (s1.length + w.length) rfl
    (by rw [hSlen]; omega)
  have hK : (s1 ++ w ++ s2).length - (s1.length + w.length) = s2.length := by
    rw [hSlen]
    omega
  rw [hK, hbuf] at hC
  obtain ⟨tB, hB, hA, hview⟩ := tokens_before_whitespace s1 w (s2 ++ ['\x00']) [] h1 hwne hws
    tC s2.length hC s1.length 0 (by omega) (Nat.zero_le _)
  refine ⟨tB.map (Token.view (s1 ++ ['\x00'])),
    tC.map (Token.view (s1 ++ w ++ (s2 ++ ['\x00']))), ?_, ?_, ?_⟩
  · simp only [toks, Lexer_a.views, hB (s1.length + 1) (by omega), Option.map_some']
  · have hsh := views_shift (s1 ++ w) (s2 ++ ['\x00']) (s2.length + 1) 0
    simp only [List.length_append, Nat.add_zero] at hsh
    rw [toks, ← hsh]
    simp only [Lexer_a.views, hC (s2.length + 1) (by omega), Option.map_some']
  · rw [toks, hbuf, hSlen]
    simp only [Lexer_a.views, hA (s1.length + w.length + s2.length + 1) (by omega),
      Option.map_some', List.map_append, hview]

/-- C18. Tokenization is compositional across whitespace: for inputs `s1` and
`s2` without terminator byte and a non-empty whitespace string `w`, the token
list (kinds and lexeme contents up to the first `End`) of `s1 ++ w ++ s2` is the
token list of `s1` followed by the token list of `s2`; so any other non-empty
whitespace string in the place of `w` gives the same token list. -/
theorem toks_across_whitespace (s1 s2 w : List Char) (h1 : '\x00' ∉ s1) (h2 : '\x00' ∉ s2)
    (hwne : w ≠ []) (hws : ∀ x ∈ w, is_space x = true) :
    (∃ a b, toks s1 = some a ∧ toks s2 = some b ∧ toks (s1 ++ w ++ s2) = some (a ++ b)) ∧
    ∀ w2 : List Char, w2 ≠ [] → (∀ x ∈ w2, is_space x = true) →
      toks (s1 ++ w2 ++ s2) = toks (s1 ++ w ++ s2) := by
  refine ⟨toks_split s1 s2 w h1 h2 hwne hws, ?_⟩
  intro w2 hw2ne hw2s
  obtain ⟨a, b, ha, hb, hab⟩ := toks_split s1 s2 w h1 h2 hwne hws
  obtain ⟨a2, b2, ha2, hb2, hab2⟩ := toks_split s1 s2 w2 h1 h2 hw2ne hw2s
  rw [ha] at ha2
  rw [hb] at hb2
  cases ha2
  cases hb2
  rw [hab, hab2]

theorem toks_across_whitespace_witness :
    (∃ a b, toks "x=1".toList = some a ∧ toks "y2 @".toList = some b ∧
      toks ("x=1".toList ++ " \n".toList ++ "y2 @".toList) = some (a ++ b)) ∧
    ∀ w2 : List Char, w2 ≠ [] → (∀ x ∈ w2, is_space x = true) →
      toks ("x=1".toList ++ w2 ++ "y2 @".toList) =
        toks ("x=1".toList ++ " \n".toList ++ "y2 @".toList) :=
  toks_across_whitespace "x=1".toList "y2 @".toList " \n".toList (by decide) (by decide)
    (by decide) (by decide)

end TinyCompiler
